import Mathlib

/-!
# fs/btrfs/encrypt.c: the per-block encryption codec of btrfs

A shallow embedding of the three entry points of `btrfs_encrypt_ops`
(`btrfs_encrypt_pages`, `btrfs_decrypt_pages`, `btrfs_decrypt_bio_pages`)
and the properties of their page-granular orchestration.

Conventions of the embedding:
* pointers that may be `NULL` are `Option`s; dereferencing `NULL`, a load
  through the destination cursor outside the array `bi_io_vec`, or a load of a
  ciphertext page that was not supplied ends the run at that statement with
  `ret = none` (a kernel fault);
* machine integers are `Nat`/`Int`; `u64`/`size_t` arithmetic is reduced
  modulo `2 ^ 64` where it can wrap (`start += pt_len`, `DIV_ROUND_UP`); the
  byte counters never exceed the length passed in and cannot wrap;
* pages are values: a page is its `index`, its `mapping` and its bytes; the
  functions return the pages they wrote;
* the external collaborators (fscrypt, the page cache, the reassembly
  consumer, `zero_fill_bio`) are parameters of the functions;
* every call to a collaborator is appended to a log carried in the result.
-/

namespace BtrfsEncrypt

/-! ## Constants -/

/-- Modelled from the spec: the architecture macro `PAGE_SHIFT`, not defined in
`encrypt.c`; blocks are 4096-byte pages. -/
def PAGE_SHIFT : Nat := 12

/-- Modelled from the spec: the architecture macro `PAGE_SIZE`
(`1 << PAGE_SHIFT`), 4096 bytes. -/
def PAGE_SIZE : Nat := 4096

/-- Modelled from the spec: the errno constant `EINVAL` (22) behind the
invalid-argument error; the decoders return `-EINVAL`. -/
def EINVAL : Int := 22

/-- Range of `u64`, `unsigned long` and `size_t` on the 64-bit kernel. -/
def U64_RANGE : Nat := 2 ^ 64

/-- Modelled from the spec: the kernel macro `DIV_ROUND_UP(n, d)`, not defined
in `encrypt.c`, which gives `ceil(total_ciphertext_len / block_size)`: it is
`(n + d - 1) / d`, here in `size_t` arithmetic. -/
def DIV_ROUND_UP (n d : Nat) : Nat := ((n + d - 1) % U64_RANGE) / d

/-- Modelled from the spec: the btrfs macro `ASSERT(expr)`, not defined in
`encrypt.c`, one of the "implicit kernel assertions": the assertion holds when
`expr` is non-zero (and the run goes on), it fails when `expr` is zero. Both
uses in `encrypt.c` are `ASSERT(1)`. -/
def ASSERT (expr : Int) : Bool := decide (expr ≠ 0)

/-! ## Data model -/

/-- The fields of `struct inode` the codec reads: its identity and
`BTRFS_I(inode)->root->fs_info->sectorsize`. -/
structure inode where
  i_ino : Nat
  sectorsize : Nat
deriving DecidableEq

/-- The field of `struct address_space` the codec reads: `host`, which may be
`NULL`. -/
structure address_space where
  host : Option inode
deriving DecidableEq

/-- A page: its `index`, its `mapping` (may be `NULL`) and its bytes. -/
structure page where
  index : Nat
  mapping : Option address_space
  data : List Nat
deriving DecidableEq

/-- The field of `struct bio_vec` the codec reads. -/
structure bio_vec where
  bv_page : page
deriving DecidableEq

/-- Modelled from the spec: `struct bio`, the in-flight read request: "an
ordered sequence of destination Block Buffers plus a cursor indicating how many
have been filled". `bi_io_vec` is the ordered sequence of buffers (each a
block of `PAGE_SIZE` bytes), `bi_done` the cursor, counted in bytes.
`bi_max_vecs` is the kernel's field of that name, the number of entries of the
array the buffers are stored in (in a well-formed request at least the number
of buffers): the entries after the last buffer belong to the array but hold no
page, and what follows the array is not the request's memory. -/
structure bio where
  bi_io_vec : List bio_vec
  bi_done : Nat
  bi_max_vecs : Nat
deriving DecidableEq

/-- Modelled from the spec: the macro `bio_page(bio)`, the destination buffer
at the request's cursor; `none` when the cursor is past the last buffer. -/
def bio_page (b : bio) : Option page :=
  (b.bi_io_vec[b.bi_done / PAGE_SIZE]?).map bio_vec.bv_page

/-- The load `bv->bv_page` with the cursor `bv` at position `i` of the array
`bi_io_vec`. At a buffer it yields the buffer's page; at an entry of the array
after the last buffer it yields no page (`some none`: a pointer that cannot be
dereferenced); outside the array (`i >= bi_max_vecs`) the load itself is a
fault (`none`). -/
def load_bv_page (bi_io_vec : List bio_vec) (bi_max_vecs i : Nat) : Option (Option page) :=
  if i < bi_io_vec.length ∨ i < bi_max_vecs then some ((bi_io_vec[i]?).map bio_vec.bv_page)
  else none

/-- `memcpy(dst, src, n)` on byte lists: the first `n` bytes of `dst` are
replaced by the first `n` bytes of `src`. -/
def memcpy (dst src : List Nat) (n : Nat) : List Nat :=
  src.take n ++ dst.drop n

/-! ## External collaborators -/

/-- The confidentiality transform service (fscrypt).
`fscrypt_encrypt_page inode page len offs lblk_num` returns the ciphertext
bounce page or an `ERR_PTR` (the error value is what `PTR_ERR` extracts).
`fscrypt_decrypt_page inode page len offs lblk_num` decrypts in place: it
returns the `int` status and the bytes the page holds afterwards. The inode
pointer of the decrypt call can be `NULL`. -/
structure fscrypt where
  fscrypt_encrypt_page : inode → page → Nat → Nat → Nat → Except Int page
  fscrypt_decrypt_page : Option inode → page → Nat → Nat → Nat → Int × List Nat

/-- The reassembly consumer `btrfs_decompress_buf2page buf buf_start total_out
disk_start bio`, returning `more` and the request as it leaves it, and
`zero_fill_bio`. Both live outside `encrypt.c`. -/
structure consumer where
  btrfs_decompress_buf2page : List Nat → Nat → Nat → Nat → bio → Int × bio
  zero_fill_bio : bio → bio

/-! ## btrfs_encrypt_pages -/

/-- One invocation of `fscrypt_encrypt_page`, with the pointer it returned. -/
structure encrypt_call where
  pt_page : page
  len : Nat
  offs : Nat
  lblk_num : Nat
  ct_page : Except Int page

/-- The variables of `btrfs_encrypt_pages`: the out-parameters (`pages` holds
the entries `pages[0 .. nr_ct_pages)` written so far), the locals `start` and
`bytes_left`, the value returned (`none`: fault), and the logs. -/
structure encrypt_state where
  ret : Option Int
  pages : List page
  nr_ct_pages : Nat
  total_in : Nat
  total_out : Nat
  start : Nat
  bytes_left : Nat
  calls : List encrypt_call
  log : List String

/-- The `for (i = 0; i < nr_pages; i++)` loop of `btrfs_encrypt_pages`; the
first argument is the number of iterations the loop condition still allows
(`nr_pages - i`). -/
def encrypt_loop (F : fscrypt) (find_get_page : address_space → Nat → Option page)
    (mapping : address_space) (ino : inode) : Nat → encrypt_state → encrypt_state
  | 0, st => st
  | r + 1, st =>
    match find_get_page mapping (st.start >>> PAGE_SHIFT) with
    | none => { st with ret := none }
    | some pt_page =>
      let pt_len := min st.bytes_left PAGE_SIZE
      let ct_page := F.fscrypt_encrypt_page ino pt_page pt_len 0 pt_page.index
      let calls := st.calls ++ [⟨pt_page, pt_len, 0, pt_page.index, ct_page⟩]
      match ct_page with
      | .error e => { st with ret := some e, calls := calls }
      | .ok ct =>
        let st1 : encrypt_state :=
          { ret := st.ret
            pages := st.pages ++ [ct]
            nr_ct_pages := st.nr_ct_pages + 1
            total_in := st.total_in + pt_len
            total_out := st.total_out + pt_len
            start := (st.start + pt_len) % U64_RANGE
            bytes_left := st.bytes_left - pt_len
            calls := calls
            log := st.log }
        if st1.bytes_left = 0 then st1 else encrypt_loop F find_get_page mapping ino r st1

/-- The function `btrfs_encrypt_pages(na_ws, mapping, start, len, pages, nr_pages,
nr_ct_pages, total_in, total_out, na_max_out, dont_align)`. The unused
arguments `na_ws`, `na_max_out` and `dont_align` are left out. -/
def btrfs_encrypt_pages (F : fscrypt) (find_get_page : address_space → Nat → Option page)
    (mapping : address_space) (start len nr_pages : Nat) : encrypt_state :=
  let st0 : encrypt_state :=
    { ret := some 0, pages := [], nr_ct_pages := 0, total_in := 0, total_out := 0
      start := start, bytes_left := len, calls := [], log := [] }
  match mapping.host with
  | none => { st0 with ret := none }
  | some ino =>
    let blocksize := ino.sectorsize
    let st1 : encrypt_state :=
      if blocksize ≠ PAGE_SIZE then
        { st0 with log := st0.log ++ ["blocksize not same as page size"] }
      else st0
    if blocksize ≠ PAGE_SIZE ∧ ASSERT 1 = false then { st1 with ret := none }
    else encrypt_loop F find_get_page mapping ino nr_pages st1

/-! ## btrfs_decrypt_pages -/

/-- One invocation of `fscrypt_decrypt_page`, with the status it returned. The
page is recorded with the bytes it held when the call was made. -/
structure decrypt_call where
  ino : Option inode
  pg : page
  len : Nat
  offs : Nat
  lblk_num : Nat
  ret : Int

/-- The test `if (!mapping && !mapping->host)` of both decoders. With `mapping`
equal to `NULL` the left operand is true and `mapping->host` is evaluated on
the `NULL` pointer (`none`: fault). With a non-`NULL` mapping the left operand
is false and `&&` yields false without looking at `host`. -/
def need_mapped_page (mapping : Option address_space) : Option Bool :=
  match mapping with
  | none => none
  | some _ => some false

/-- What `btrfs_decrypt_pages` leaves behind: the value returned (`none`:
fault), the destination page, and the logs. -/
structure decrypt_result where
  ret : Option Int
  out_page : page
  calls : List decrypt_call
  log : List String

/-- The function `btrfs_decrypt_pages(na_ws, in, out_page, na_start_byte,
in_size, max_out_size)`. The unused argument `na_ws` is left out. -/
def btrfs_decrypt_pages (F : fscrypt) (in_buf : List Nat) (out_page : page)
    (na_start_byte in_size max_out_size : Nat) : decrypt_result :=
  if in_size > PAGE_SIZE ∨ max_out_size < PAGE_SIZE then
    { ret := some (-EINVAL), out_page := out_page, calls := []
      log := ["BTRFS: crypto, cant decrypt more than page size"] }
  else
    match need_mapped_page out_page.mapping with
    | none => { ret := none, out_page := out_page, calls := [], log := [] }
    | some true =>
      { ret := some (-EINVAL), out_page := out_page, calls := []
        log := ["BTRFS: crypto, Need mapped pages"] }
    | some false =>
      match out_page.mapping with
      | none => { ret := none, out_page := out_page, calls := [], log := [] }
      | some mapping =>
        let ino := mapping.host
        let copied : page := { out_page with data := memcpy out_page.data in_buf in_size }
        let r := F.fscrypt_decrypt_page ino copied in_size na_start_byte copied.index
        let call : decrypt_call := ⟨ino, copied, in_size, na_start_byte, copied.index, r.1⟩
        let log := if na_start_byte ≠ 0 then ["Non zero start of the page"] else []
        if na_start_byte ≠ 0 ∧ ASSERT 1 = false then
          { ret := none, out_page := { copied with data := r.2 }, calls := [call], log := log }
        else
          { ret := some r.1, out_page := { copied with data := r.2 }, calls := [call], log := log }

/-! ## btrfs_decrypt_bio_pages -/

/-- One call of the reassembly consumer, with the `more` it returned. -/
structure feed_call where
  buf : List Nat
  buf_start : Nat
  total_out : Nat
  disk_start : Nat
  more : Int

/-- How the loop of `btrfs_decrypt_bio_pages` was left: it ran out or hit
`break` (`finished`), it executed `return ret`, or it faulted. -/
inductive loop_exit where
  | finished
  | returned (ret : Int)
  | fault
deriving DecidableEq

/-- The variables of `btrfs_decrypt_bio_pages`: the ciphertext pages (decrypted
in place), the request, the destination cursor `bv` (a position in
`bi_io_vec`) with the `out_page` last read through it, the byte counters, and
the logs: transform calls, consumer calls, and the positions at which
`bv->bv_page` was loaded (a load that faults is logged too). -/
structure decrypt_bio_state where
  exit : loop_exit
  in_pages : List page
  orig_bio : bio
  bv : Nat
  out_page : Option page
  bytes_left : Nat
  processed_len : Nat
  calls : List decrypt_call
  feeds : List feed_call
  bv_reads : List Nat

/-- The `for (page_in_index = 0; page_in_index < total_in_pages;
page_in_index++)` loop of `btrfs_decrypt_bio_pages`. The first argument is
the number of iterations the loop condition still allows, `bi_io_vec` is the
array of `bi_max_vecs` entries the cursor `bv` walks (its entries and the
`index` of their pages are not written during the call). After the consumer
call of every iteration comes `bv++; out_page = bv->bv_page;`, before `more` is
tested: a load outside the array ends the run there. -/
def decrypt_bio_loop (F : fscrypt) (C : consumer) (ino : Option inode) (disk_start : Nat)
    (bi_io_vec : List bio_vec) (bi_max_vecs : Nat) :
    Nat → Nat → decrypt_bio_state → decrypt_bio_state
  | 0, _, st => st
  | r + 1, page_in_index, st =>
    match st.in_pages[page_in_index]? with
    | none => { st with exit := .fault }
    | some in_page =>
      let cur_page_len := min st.bytes_left PAGE_SIZE
      match st.out_page with
      | none => { st with exit := .fault }
      | some out_page =>
        let res := F.fscrypt_decrypt_page ino in_page cur_page_len 0 out_page.index
        let calls := st.calls ++ [⟨ino, in_page, cur_page_len, 0, out_page.index, res.1⟩]
        let in_pages := st.in_pages.set page_in_index { in_page with data := res.2 }
        if res.1 ≠ 0 then
          { st with exit := .returned res.1, in_pages := in_pages, calls := calls }
        else
          let fed := C.btrfs_decompress_buf2page res.2 st.processed_len
            (st.processed_len + cur_page_len) disk_start st.orig_bio
          let st1 : decrypt_bio_state :=
            { exit := st.exit
              in_pages := in_pages
              orig_bio := fed.2
              bv := st.bv + 1
              out_page := st.out_page
              bytes_left := st.bytes_left - cur_page_len
              processed_len := st.processed_len + cur_page_len
              calls := calls
              feeds := st.feeds ++ [⟨res.2, st.processed_len, st.processed_len + cur_page_len,
                disk_start, fed.1⟩]
              bv_reads := st.bv_reads ++ [st.bv + 1] }
          match load_bv_page bi_io_vec bi_max_vecs (st.bv + 1) with
          | none => { st1 with exit := .fault }
          | some next_page =>
            let st2 : decrypt_bio_state := { st1 with out_page := next_page }
            if fed.1 = 0 then st2
            else
              decrypt_bio_loop F C ino disk_start bi_io_vec bi_max_vecs r (page_in_index + 1) st2

/-- What `btrfs_decrypt_bio_pages` leaves behind: the value returned (`none`:
fault), the ciphertext pages, the request, the logs of the loop, and how many
times `zero_fill_bio` was called. -/
structure decrypt_bio_result where
  ret : Option Int
  in_pages : List page
  orig_bio : bio
  calls : List decrypt_call
  feeds : List feed_call
  bv_reads : List Nat
  zero_fills : Nat
  log : List String

/-- The state in which `btrfs_decrypt_bio_pages` enters its loop: `bytes_left =
in_len`, `bv = orig_bio->bi_io_vec`, and `out_page` the page `first` that
`out_page = bv->bv_page` loaded at position 0. -/
def decrypt_bio_init (in_pages : List page) (orig_bio : bio) (in_len : Nat)
    (first : Option page) : decrypt_bio_state :=
  { exit := .finished
    in_pages := in_pages
    orig_bio := orig_bio
    bv := 0
    out_page := first
    bytes_left := in_len
    processed_len := 0
    calls := []
    feeds := []
    bv_reads := [0] }

/-- The function `btrfs_decrypt_bio_pages(na_ws, in_pages, disk_start, orig_bio,
in_len)`; `na_ws` is true when the workspace pointer is not `NULL`. -/
def btrfs_decrypt_bio_pages (F : fscrypt) (C : consumer) (na_ws : Bool) (in_pages : List page)
    (disk_start : Nat) (orig_bio : bio) (in_len : Nat) : decrypt_bio_result :=
  let total_in_pages := DIV_ROUND_UP in_len PAGE_SIZE
  let untouched (ret : Option Int) (log : List String) : decrypt_bio_result :=
    { ret := ret, in_pages := in_pages, orig_bio := orig_bio, calls := [], feeds := []
      bv_reads := [], zero_fills := 0, log := log }
  if na_ws then untouched (some (-EINVAL)) ["Error: does not support ws"]
  else
    match bio_page orig_bio with
    | none => untouched none []
    | some out_page =>
      match need_mapped_page out_page.mapping with
      | none => untouched none []
      | some true => untouched (some (-EINVAL)) ["BTRFS: crypto, need mapped page"]
      | some false =>
        match out_page.mapping with
        | none => untouched none []
        | some mapping =>
          match load_bv_page orig_bio.bi_io_vec orig_bio.bi_max_vecs 0 with
          | none => { untouched none [] with bv_reads := [0] }
          | some first =>
            let st := decrypt_bio_loop F C mapping.host disk_start orig_bio.bi_io_vec
              orig_bio.bi_max_vecs total_in_pages 0
              (decrypt_bio_init in_pages orig_bio in_len first)
            match st.exit with
            | .fault =>
              { ret := none, in_pages := st.in_pages, orig_bio := st.orig_bio, calls := st.calls
                feeds := st.feeds, bv_reads := st.bv_reads, zero_fills := 0, log := [] }
            | .returned ret =>
              { ret := some ret, in_pages := st.in_pages, orig_bio := st.orig_bio
                calls := st.calls, feeds := st.feeds, bv_reads := st.bv_reads, zero_fills := 0
                log := [] }
            | .finished =>
              { ret := some 0, in_pages := st.in_pages, orig_bio := C.zero_fill_bio st.orig_bio
                calls := st.calls, feeds := st.feeds, bv_reads := st.bv_reads, zero_fills := 1
                log := [] }

/-! ## The reassembly consumer and the zero fill, from the specification -/

/-- Modelled from the spec: how the reassembly consumer "copies/distributes the
plaintext into the request's destination buffers": the bytes `d` go to the
buffers from byte position `off` on, each buffer holding `PAGE_SIZE` bytes. -/
def fill_bvecs : List bio_vec → Nat → List Nat → List bio_vec
  | [], _, _ => []
  | bv :: rest, off, d =>
    if PAGE_SIZE ≤ off then bv :: fill_bvecs rest (off - PAGE_SIZE) d
    else
      let n := min (PAGE_SIZE - off) d.length
      { bv_page := { bv.bv_page with
          data := bv.bv_page.data.take off ++ d.take n ++ bv.bv_page.data.drop (off + n) } }
        :: fill_bvecs rest 0 (d.drop n)

/-- Number of bytes the request's destination buffers hold. -/
def bio_capacity (b : bio) : Nat := b.bi_io_vec.length * PAGE_SIZE

/-- Modelled from the spec: the reassembly consumer `btrfs_decompress_buf2page`
(in `compression.c`), `feed(plaintext_slice, dest_logical_start,
dest_logical_end) -> more_destination_remaining`: the slice is the first
`total_out - buf_start` bytes of `buf`; as much of it as the request still has
room for is copied to the destination buffers at the request's cursor, the
cursor advances past it, and the result reports whether destination remains to
be filled. -/
def spec_buf2page (buf : List Nat) (buf_start total_out _disk_start : Nat) (b : bio) :
    Int × bio :=
  let d := (buf.take (total_out - buf_start)).take (bio_capacity b - b.bi_done)
  let b1 : bio :=
    { bi_io_vec := fill_bvecs b.bi_io_vec b.bi_done d, bi_done := b.bi_done + d.length
      bi_max_vecs := b.bi_max_vecs }
  (if b1.bi_done < bio_capacity b1 then 1 else 0, b1)

/-- Modelled from the spec: the bytes of the buffers from byte position `off`
on are set to zero. -/
def zero_bvecs : List bio_vec → Nat → List bio_vec
  | [], _ => []
  | bv :: rest, off =>
    if PAGE_SIZE ≤ off then bv :: zero_bvecs rest (off - PAGE_SIZE)
    else
      { bv_page := { bv.bv_page with
          data := bv.bv_page.data.take off ++ List.replicate (bv.bv_page.data.length - off) 0 } }
        :: zero_bvecs rest 0

/-- Modelled from the spec: `zero_fill_bio` (in `block/bio.c`): "any destination
buffer region not filled by decrypted content is explicitly zero-filled": the
bytes from the request's cursor to the end of the last buffer become zero, the
cursor stays. -/
def spec_zero_fill_bio (b : bio) : bio :=
  { b with bi_io_vec := zero_bvecs b.bi_io_vec b.bi_done }

/-- Modelled from the spec: the consumer made of `spec_buf2page` and
`spec_zero_fill_bio`. -/
def spec_consumer : consumer :=
  { btrfs_decompress_buf2page := spec_buf2page, zero_fill_bio := spec_zero_fill_bio }

/-- The bytes of a sequence of destination buffers, in order. -/
def bvec_bytes (l : List bio_vec) : List Nat :=
  (l.map (fun bv => bv.bv_page.data)).flatten

/-- The bytes of a request's destination buffers, in order. -/
def bio_bytes (b : bio) : List Nat := bvec_bytes b.bi_io_vec

/-- Every buffer of the sequence holds `PAGE_SIZE` bytes. -/
def block_buffers (l : List bio_vec) : Prop :=
  ∀ bv ∈ l, bv.bv_page.data.length = PAGE_SIZE

instance (l : List bio_vec) : Decidable (block_buffers l) := by
  unfold block_buffers
  infer_instance

/-- The slice a recorded consumer call passes: the first `total_out - buf_start`
bytes of `buf`. -/
def feed_slice (f : feed_call) : List Nat := f.buf.take (f.total_out - f.buf_start)

/-- The bytes passed by a sequence of consumer calls, in order. -/
def fed_bytes (fs : List feed_call) : List Nat := (fs.map feed_slice).flatten

/-! ## A concrete transform service and concrete pages -/

/-- The bytes `d`, each XORed with `lblk_num + 1`. -/
def xor_bytes (d : List Nat) (lblk_num : Nat) : List Nat :=
  d.map (fun b => b ^^^ (lblk_num + 1))

/-- A transform service for the examples: both directions XOR every byte of the
page with `lblk_num + 1`; a call whose tweak index `bad` maps to an error value
fails with it. -/
def xor_fscrypt (bad : Nat → Option Int) : fscrypt :=
  { fscrypt_encrypt_page := fun _ pg _ _ lblk_num =>
      match bad lblk_num with
      | some e => .error e
      | none => .ok ⟨0, none, xor_bytes pg.data lblk_num⟩
    fscrypt_decrypt_page := fun _ pg _ _ lblk_num =>
      match bad lblk_num with
      | some e => (e, pg.data)
      | none => (0, xor_bytes pg.data lblk_num) }

/-- The service that never fails. -/
def good_fscrypt : fscrypt := xor_fscrypt (fun _ => none)

/-- A service that fails with `-126` (`-ENOKEY`) on the block of tweak index 3. -/
def bad_fscrypt : fscrypt :=
  xor_fscrypt (fun lblk_num => if lblk_num = 3 then some (-126) else none)

/-- An inode of a filesystem whose sector size is the page size. -/
def demo_inode : inode := ⟨257, 4096⟩

/-- The mapping of `demo_inode`. -/
def demo_mapping : address_space := ⟨some demo_inode⟩

/-- A page of `demo_mapping` at `index`, every byte equal to `fill`. -/
def demo_page (index fill : Nat) : page :=
  ⟨index, some demo_mapping, List.replicate PAGE_SIZE fill⟩

/-- A page cache holding, at every index `i`, the page of bytes `i + 1`. -/
def demo_cache : address_space → Nat → Option page :=
  fun _ i => some (demo_page i (i + 1))

/-- A fresh request of `n` destination buffers for the page indices `first`,
`first + 1`, ..., every byte `0xaa`, stored in an array of `n` entries. -/
def demo_bio (n first : Nat) : bio :=
  ⟨(List.range n).map (fun k => ⟨demo_page (first + k) 170⟩), 0, n⟩

/-- Three ciphertext pages (bytes 23, 21, 19; their own `index` is 0): under
`good_fscrypt` and the tweak indices 1, 2, 3 they decrypt to bytes 21, 22, 23. -/
def demo_ct_pages : List page := [demo_page 0 23, demo_page 0 21, demo_page 0 19]

/-- The streaming decode of 10000 bytes held in `demo_ct_pages` into a fresh
request of three buffers for the page indices 1, 2, 3, stored in an array of
`bi_max_vecs` entries, with the consumer `C`. -/
def demo_decode (C : consumer) (bi_max_vecs : Nat) : decrypt_bio_result :=
  btrfs_decrypt_bio_pages good_fscrypt C false demo_ct_pages PAGE_SIZE
    ⟨(demo_bio 3 1).bi_io_vec, 0, bi_max_vecs⟩ 10000

/-- The decode `demo_decode` with the consumer of the specification into the
request whose array has just the three entries of its buffers. -/
def demo_run : decrypt_bio_result := demo_decode spec_consumer 3

/-- A destination page whose mapping has no host inode (ownerless). -/
def ownerless_page : page := ⟨5, some ⟨none⟩, List.replicate PAGE_SIZE 170⟩

/-- A destination page without mapping (unmapped). -/
def unmapped_page : page := ⟨5, none, List.replicate PAGE_SIZE 170⟩

/-- An inode of a filesystem whose sector size (8192) is not the page size. -/
def big_sector_inode : inode := ⟨257, 8192⟩

/-! ## Predicates used to state the loop invariants -/

/-- The call `c` is the one the loop of `btrfs_decrypt_bio_pages` makes for
ciphertext block `j`. -/
def block_call (F : fscrypt) (ino : Option inode) (in_pages : List page)
    (bi_io_vec : List bio_vec) (in_len j : Nat) (c : decrypt_call) : Prop :=
  c.ino = ino ∧ in_pages[j]? = some c.pg ∧
    c.len = min (in_len - j * PAGE_SIZE) PAGE_SIZE ∧ c.offs = 0 ∧
    (bi_io_vec[j]?).map (fun bv => bv.bv_page.index) = some c.lblk_num ∧
    c.ret = (F.fscrypt_decrypt_page c.ino c.pg c.len c.offs c.lblk_num).1

/-- The consumer call recorded as `f`, made on the request `b`. -/
def feed_bio (C : consumer) (b : bio) (f : feed_call) : Int × bio :=
  C.btrfs_decompress_buf2page f.buf f.buf_start f.total_out f.disk_start b

/-- The request after the recorded consumer calls were made on it in order. -/
def replay (C : consumer) (b : bio) (fs : List feed_call) : bio :=
  fs.foldl (fun b f => (feed_bio C b f).2) b

/-- The part of the loop invariant that speaks about the logs. -/
structure trace_ok (F : fscrypt) (C : consumer) (ino : Option inode) (disk_start : Nat)
    (in_pages : List page) (orig_bio : bio) (in_len : Nat) (st : decrypt_bio_state) : Prop where
  calls : ∀ (j : Nat) (c : decrypt_call), st.calls[j]? = some c →
    block_call F ino in_pages orig_bio.bi_io_vec in_len j c
  inplace : ∀ (j : Nat) (c : decrypt_call), st.calls[j]? = some c → st.in_pages[j]? =
    some { c.pg with data := (F.fscrypt_decrypt_page c.ino c.pg c.len c.offs c.lblk_num).2 }
  feeds : ∀ (j : Nat) (f : feed_call), st.feeds[j]? = some f → ∃ c, st.calls[j]? = some c ∧
    c.ret = 0 ∧ f.buf = (F.fscrypt_decrypt_page c.ino c.pg c.len c.offs c.lblk_num).2 ∧
    f.buf_start = min (j * PAGE_SIZE) in_len ∧ f.total_out = f.buf_start + c.len ∧
    f.disk_start = disk_start
  more : ∀ (j : Nat) (f : feed_call), st.feeds[j]? = some f →
    f.more = (feed_bio C (replay C orig_bio (st.feeds.take j)) f).1 ∧
    (j + 1 < st.feeds.length → f.more ≠ 0)
  bio : st.orig_bio = replay C orig_bio st.feeds
  reads : st.bv_reads = List.range (st.feeds.length + 1)

/-- The invariant at the head of iteration `i` of the loop. -/
structure loop_inv (F : fscrypt) (C : consumer) (ino : Option inode) (disk_start : Nat)
    (in_pages : List page) (orig_bio : bio) (in_len i : Nat) (st : decrypt_bio_state) :
    Prop where
  trace : trace_ok F C ino disk_start in_pages orig_bio in_len st
  going : ∀ f ∈ st.feeds, f.more ≠ 0
  exit : st.exit = .finished
  bv : st.bv = i
  out_page : st.out_page = (orig_bio.bi_io_vec[i]?).map bio_vec.bv_page
  bytes_left : st.bytes_left = in_len - i * PAGE_SIZE
  processed : st.processed_len = min (i * PAGE_SIZE) in_len
  ncalls : st.calls.length = i
  nfeeds : st.feeds.length = i
  rest : ∀ j : Nat, i ≤ j → st.in_pages[j]? = in_pages[j]?
  loaded : i = 0 ∨ i < orig_bio.bi_io_vec.length ∨ i < orig_bio.bi_max_vecs

/-- What holds when the loop, allowed `total` iterations, is left: after a
failed transform call (the last one logged, one more than the feeds); after the
last allowed iteration or a `break` (the last feed reported `more = 0`), every
load through the cursor having been inside the array; at a fault at the head of
an iteration (the ciphertext page is missing, or `out_page` is no page); or at
a fault of the load `out_page = bv->bv_page` after the last feed, outside the
array. -/
structure loop_post (F : fscrypt) (C : consumer) (ino : Option inode) (disk_start : Nat)
    (in_pages : List page) (orig_bio : bio) (in_len total : Nat) (st : decrypt_bio_state) :
    Prop where
  trace : trace_ok F C ino disk_start in_pages orig_bio in_len st
  exit : (∃ e c, st.exit = .returned e ∧ e ≠ 0 ∧ st.calls.length = st.feeds.length + 1 ∧
      st.calls[st.feeds.length]? = some c ∧ c.ret = e ∧ st.feeds.length < total) ∨
    (st.exit = .finished ∧ st.calls.length = st.feeds.length ∧ st.feeds.length ≤ total ∧
      (st.feeds.length = total ∨
        ∃ f, st.feeds[st.feeds.length - 1]? = some f ∧ f.more = 0) ∧
      (st.feeds.length = 0 ∨ st.feeds.length < orig_bio.bi_io_vec.length ∨
        st.feeds.length < orig_bio.bi_max_vecs)) ∨
    (st.exit = .fault ∧ st.calls.length = st.feeds.length ∧ st.feeds.length < total ∧
      (∀ f ∈ st.feeds, f.more ≠ 0) ∧
      (in_pages[st.feeds.length]? = none ∨ orig_bio.bi_io_vec[st.feeds.length]? = none)) ∨
    (st.exit = .fault ∧ st.calls.length = st.feeds.length ∧ 1 ≤ st.feeds.length ∧
      st.feeds.length ≤ total ∧ orig_bio.bi_io_vec.length ≤ st.feeds.length ∧
      orig_bio.bi_max_vecs ≤ st.feeds.length)

/-- The value of the local `start` of `btrfs_encrypt_pages` at the head of
iteration `j` when all earlier blocks were whole pages: `start + j * PAGE_SIZE`
in `u64` arithmetic. -/
def block_start (start j : Nat) : Nat :=
  if j = 0 then start else (start + j * PAGE_SIZE) % U64_RANGE

/-- The call `c` is the one the loop of `btrfs_encrypt_pages` makes in
iteration `j`: on the page the cache holds for the offset `block_start start
j`, for the bytes of the range that fall into block `j`, at intra-block offset
0, with the page's own index as tweak. -/
def enc_call_ok (F : fscrypt) (find_get_page : address_space → Nat → Option page)
    (mapping : address_space) (ino : inode) (start len j : Nat) (c : encrypt_call) : Prop :=
  find_get_page mapping (block_start start j >>> PAGE_SHIFT) = some c.pt_page ∧
    c.len = min (len - j * PAGE_SIZE) PAGE_SIZE ∧ c.offs = 0 ∧ c.lblk_num = c.pt_page.index ∧
    c.ct_page = F.fscrypt_encrypt_page ino c.pt_page c.len c.offs c.lblk_num

/-- The part of the encoder's loop invariant that speaks about the log and the
out-parameters. -/
structure enc_trace_ok (F : fscrypt) (find_get_page : address_space → Nat → Option page)
    (mapping : address_space) (ino : inode) (start len : Nat) (st : encrypt_state) : Prop where
  calls : ∀ (j : Nat) (c : encrypt_call), st.calls[j]? = some c →
    enc_call_ok F find_get_page mapping ino start len j c
  pages : ∀ (j : Nat) (ct : page), st.pages[j]? = some ct →
    ∃ c, st.calls[j]? = some c ∧ c.ct_page = .ok ct
  nr : st.nr_ct_pages = st.pages.length
  total_in : st.total_in = min (st.pages.length * PAGE_SIZE) len
  total_out : st.total_out = st.total_in

/-- The invariant at the head of iteration `i` of the encoder's loop. -/
structure enc_inv (F : fscrypt) (find_get_page : address_space → Nat → Option page)
    (mapping : address_space) (ino : inode) (start len i : Nat) (st : encrypt_state) :
    Prop where
  trace : enc_trace_ok F find_get_page mapping ino start len st
  ret : st.ret = some 0
  npages : st.pages.length = i
  ncalls : st.calls.length = i
  start : st.start = block_start start i
  bytes_left : st.bytes_left = len - i * PAGE_SIZE
  going : i = 0 ∨ i * PAGE_SIZE < len

/-- What holds when the encoder's loop, allowed `total` iterations, is left:
with `ret = 0` after the last allowed iteration or when the range is exhausted,
with the error of the last transform call, or at a fault (no page in the
cache). -/
structure enc_post (F : fscrypt) (find_get_page : address_space → Nat → Option page)
    (mapping : address_space) (ino : inode) (start len total : Nat) (st : encrypt_state) :
    Prop where
  trace : enc_trace_ok F find_get_page mapping ino start len st
  exit : (st.ret = some 0 ∧ st.calls.length = st.pages.length ∧ st.pages.length ≤ total ∧
      (st.pages.length = total ∨ (1 ≤ st.pages.length ∧ len ≤ st.pages.length * PAGE_SIZE)) ∧
      (st.pages.length ≤ 1 ∨ (st.pages.length - 1) * PAGE_SIZE < len)) ∨
    (∃ e c, st.ret = some e ∧ st.calls.length = st.pages.length + 1 ∧
      st.calls[st.pages.length]? = some c ∧ c.ct_page = .error e ∧ st.pages.length < total ∧
      (st.pages.length = 0 ∨ st.pages.length * PAGE_SIZE < len)) ∨
    (st.ret = none ∧ st.calls.length = st.pages.length ∧ st.pages.length < total ∧
      (st.pages.length = 0 ∨ st.pages.length * PAGE_SIZE < len) ∧
      find_get_page mapping (block_start start st.pages.length >>> PAGE_SHIFT) = none)

/-- The run of `btrfs_decrypt_bio_pages` went through the loop: the request has
a buffer at its cursor whose `mapping` is set, the loop was left in a state
`st` as `loop_post` describes, and the result is made from `st` according to
how the loop was left (zero fill and 0, the error, or the fault). -/
def decode_ran (F : fscrypt) (C : consumer) (in_pages : List page) (disk_start : Nat)
    (orig_bio : bio) (in_len : Nat) (r : decrypt_bio_result) : Prop :=
  ∃ out_page mapping st, bio_page orig_bio = some out_page ∧ out_page.mapping = some mapping ∧
    loop_post F C mapping.host disk_start in_pages orig_bio in_len
      (DIV_ROUND_UP in_len PAGE_SIZE) st ∧
    r.calls = st.calls ∧ r.feeds = st.feeds ∧ r.bv_reads = st.bv_reads ∧
    r.in_pages = st.in_pages ∧
    ((st.exit = .finished ∧ r.ret = some 0 ∧ r.zero_fills = 1 ∧
        r.orig_bio = C.zero_fill_bio st.orig_bio) ∨
      (∃ e, st.exit = .returned e ∧ r.ret = some e ∧ r.zero_fills = 0 ∧
        r.orig_bio = st.orig_bio) ∨
      (st.exit = .fault ∧ r.ret = none ∧ r.zero_fills = 0 ∧ r.orig_bio = st.orig_bio))

/-- The run of `btrfs_decrypt_bio_pages` ended before the loop, leaving
everything as it was. -/
def decode_skipped (in_pages : List page) (orig_bio : bio) (r : decrypt_bio_result) : Prop :=
  r.calls = [] ∧ r.feeds = [] ∧ r.bv_reads = [] ∧ r.zero_fills = 0 ∧ r.orig_bio = orig_bio ∧
    r.in_pages = in_pages

/-- The number of bytes of ciphertext block `k` of a stream of `in_len` bytes
(`cur_page_len` in iteration `k`). -/
def block_len (in_len k : Nat) : Nat := min (in_len - k * PAGE_SIZE) PAGE_SIZE

/-- What the transform service answers when the streaming decoder decrypts the
ciphertext page `cp k` as block `k`, with the index of the destination page
`dp k` as tweak. -/
def block_plain (F : fscrypt) (ino : Option inode) (cp dp : Nat → page) (in_len k : Nat) :
    Int × List Nat :=
  F.fscrypt_decrypt_page ino (cp k) (block_len in_len k) 0 (dp k).index

/-- The number of blocks of a range of `len` bytes, `ceil(len / PAGE_SIZE)`. -/
def nr_blocks (len : Nat) : Nat := (len + PAGE_SIZE - 1) / PAGE_SIZE

/-- The number of blocks the streaming decoder processes when it decodes `in_len`
bytes into a fresh request of `n` whole block buffers with the consumer of the
specification: all `ceil(in_len / PAGE_SIZE)` blocks, or `n` of them when the
request is full before (the consumer reports that no destination remains). -/
def blocks_done (in_len n : Nat) : Nat := min (DIV_ROUND_UP in_len PAGE_SIZE) n
/-! ## Lemmas -/

theorem U64_RANGE_eq : U64_RANGE = 18446744073709551616 := by
  norm_num [U64_RANGE]

/-- An element of `l ++ [a]` is an element of `l` at the same position, or it is `a`
at position `l.length`. -/
theorem getElem?_snoc {α : Type} {l : List α} {a x : α} {j : Nat}
    (h : (l ++ [a])[j]? = some x) : l[j]? = some x ∨ (j = l.length ∧ x = a) := by
  rcases Nat.lt_or_ge j l.length with hj | hj
  · left
    rwa [List.getElem?_append_left hj] at h
  · right
    rw [List.getElem?_append_right hj] at h
    rcases Nat.eq_or_lt_of_le hj with he | hlt
    · subst he
      simp at h
      exact ⟨rfl, h.symm⟩
    · have : 0 < j - l.length := by omega
      obtain ⟨n, hn⟩ := Nat.exists_eq_succ_of_ne_zero (Nat.pos_iff_ne_zero.mp this)
      rw [hn] at h
      simp at h

/-- Replaying one more consumer call. -/
theorem replay_snoc (C : consumer) (b : bio) (fs : List feed_call) (f : feed_call) :
    replay C b (fs ++ [f]) = (feed_bio C (replay C b fs) f).2 := by
  simp [replay, List.foldl_append]

theorem loop_post_of_inv {F : fscrypt} {C : consumer} {ino : Option inode} {disk_start : Nat}
    {in_pages : List page} {orig_bio : bio} {in_len i : Nat} {st : decrypt_bio_state}
    (h : loop_inv F C ino disk_start in_pages orig_bio in_len i st) :
    loop_post F C ino disk_start in_pages orig_bio in_len i st :=
  ⟨h.trace, Or.inr (Or.inl ⟨h.exit, by rw [h.ncalls, h.nfeeds], by rw [h.nfeeds],
    Or.inl h.nfeeds, by rw [h.nfeeds]; exact h.loaded⟩)⟩

/-- When the load `bv->bv_page` at position `i` is a fault, `i` is outside the
array and past the buffers; otherwise it yields what `bi_io_vec` holds at `i`. -/
theorem load_bv_page_none {bi_io_vec : List bio_vec} {bi_max_vecs i : Nat}
    (h : load_bv_page bi_io_vec bi_max_vecs i = none) :
    bi_io_vec.length ≤ i ∧ bi_max_vecs ≤ i := by
  unfold load_bv_page at h
  split at h
  · cases h
  · omega

theorem load_bv_page_some {bi_io_vec : List bio_vec} {bi_max_vecs i : Nat} {pg : Option page}
    (h : load_bv_page bi_io_vec bi_max_vecs i = some pg) :
    (i < bi_io_vec.length ∨ i < bi_max_vecs) ∧ pg = (bi_io_vec[i]?).map bio_vec.bv_page := by
  unfold load_bv_page at h
  split at h
  · rename_i hlt
    cases h
    exact ⟨hlt, rfl⟩
  · cases h

/-- The loop of `btrfs_decrypt_bio_pages`, entered at iteration `i` in a state that
satisfies the invariant and allowed `r` more iterations, is left in a state
that satisfies `loop_post`. -/
theorem decrypt_bio_loop_post (F : fscrypt) (C : consumer) (ino : Option inode) (disk_start : Nat)
    (in_pages : List page) (orig_bio : bio) (in_len : Nat) :
    ∀ (r i : Nat) (st : decrypt_bio_state),
      loop_inv F C ino disk_start in_pages orig_bio in_len i st →
      loop_post F C ino disk_start in_pages orig_bio in_len (i + r)
        (decrypt_bio_loop F C ino disk_start orig_bio.bi_io_vec orig_bio.bi_max_vecs r i st) := by
  intro r
  induction r with
  | zero =>
    intro i st h
    rw [decrypt_bio_loop]
    exact loop_post_of_inv h
  | succ r ih =>
    intro i st h
    have hbl := h.bytes_left
    have hpl := h.processed
    have hnc := h.ncalls
    have hnf := h.nfeeds
    have hbv := h.bv
    rw [decrypt_bio_loop]
    split
    · rename_i hin
      refine ⟨⟨h.trace.calls, h.trace.inplace, h.trace.feeds, h.trace.more, h.trace.bio,
        h.trace.reads⟩, Or.inr (Or.inr (Or.inl ⟨rfl, by simp [hnc, hnf], by simp only [hnf]; omega,
          h.going, ?_⟩))⟩
      left
      simp only [hnf]
      rw [← h.rest i (le_refl i)]
      exact hin
    · rename_i in_page hin
      split
      · rename_i hout
        refine ⟨⟨h.trace.calls, h.trace.inplace, h.trace.feeds, h.trace.more, h.trace.bio,
          h.trace.reads⟩, Or.inr (Or.inr (Or.inl ⟨rfl, by simp [hnc, hnf],
            by simp only [hnf]; omega, h.going, ?_⟩))⟩
        right
        simp only [hnf]
        have := h.out_page
        rw [hout] at this
        cases hb : orig_bio.bi_io_vec[i]? with
        | none => rfl
        | some b => rw [hb] at this; simp at this
      · rename_i out_page hout
        have hin0 : in_pages[i]? = some in_page := by rw [← h.rest i (le_refl i)]; exact hin
        have hilt : i < st.in_pages.length := (List.getElem?_eq_some.mp hin).1
        have hidx : (orig_bio.bi_io_vec[i]?).map (fun bv => bv.bv_page.index)
            = some out_page.index := by
          have := h.out_page
          rw [hout] at this
          cases hb : orig_bio.bi_io_vec[i]? with
          | none => rw [hb] at this; simp at this
          | some b => rw [hb] at this; simp at this; simp [this]
        simp only []
        generalize hres : F.fscrypt_decrypt_page ino in_page (min st.bytes_left PAGE_SIZE) 0
          out_page.index = res
        -- the call made in this iteration
        have hcall : block_call F ino in_pages orig_bio.bi_io_vec in_len i
            ⟨ino, in_page, min st.bytes_left PAGE_SIZE, 0, out_page.index, res.1⟩ :=
          ⟨rfl, hin0, by rw [hbl], rfl, hidx, by simp only [hres]⟩
        have hcalls : ∀ (j : Nat) (c : decrypt_call),
            (st.calls ++ [⟨ino, in_page, min st.bytes_left PAGE_SIZE, 0, out_page.index,
              res.1⟩])[j]? = some c → block_call F ino in_pages orig_bio.bi_io_vec in_len j c := by
          intro j c hj
          rcases getElem?_snoc hj with hjo | ⟨hjl, hc⟩
          · exact h.trace.calls j c hjo
          · subst hc; rw [hjl, hnc]; exact hcall
        have hinplace : ∀ (j : Nat) (c : decrypt_call),
            (st.calls ++ [⟨ino, in_page, min st.bytes_left PAGE_SIZE, 0, out_page.index,
              res.1⟩])[j]? = some c →
            (st.in_pages.set i { in_page with data := res.2 })[j]? = some { c.pg with data :=
              (F.fscrypt_decrypt_page c.ino c.pg c.len c.offs c.lblk_num).2 } := by
          intro j c hj
          rcases getElem?_snoc hj with hjo | ⟨hjl, hc⟩
          · have hlt : j < st.calls.length := (List.getElem?_eq_some.mp hjo).1
            rw [List.getElem?_set_ne (by omega)]
            exact h.trace.inplace j c hjo
          · subst hc
            rw [hjl, hnc, List.getElem?_set_self hilt]
            simp only [hres]
        split
        · rename_i hfail
          refine ⟨⟨hcalls, hinplace, ?_, h.trace.more, h.trace.bio, h.trace.reads⟩,
            Or.inl ⟨res.1, ⟨ino, in_page, min st.bytes_left PAGE_SIZE, 0, out_page.index, res.1⟩,
              rfl, hfail, ?_, ?_, rfl, by simp only [hnf]; omega⟩⟩
          · intro j f hj
            obtain ⟨c, hc, hrest⟩ := h.trace.feeds j f hj
            refine ⟨c, ?_, hrest⟩
            rw [List.getElem?_append_left (List.getElem?_eq_some.mp hc).1]
            exact hc
          · simp [hnc, hnf]
          · simp only []
            rw [hnf, ← hnc, List.getElem?_append_right (le_refl _)]
            simp
        · rename_i hok
          have hok0 : res.1 = 0 := by simpa using hok
          generalize hfed : C.btrfs_decompress_buf2page res.2 st.processed_len
            (st.processed_len + min st.bytes_left PAGE_SIZE) disk_start st.orig_bio = fed
          have hfeeds : ∀ (j : Nat) (f : feed_call),
              (st.feeds ++ [⟨res.2, st.processed_len,
                st.processed_len + min st.bytes_left PAGE_SIZE, disk_start, fed.1⟩])[j]? = some f →
              ∃ c, (st.calls ++ [⟨ino, in_page, min st.bytes_left PAGE_SIZE, 0, out_page.index,
                  res.1⟩])[j]? = some c ∧ c.ret = 0 ∧
                f.buf = (F.fscrypt_decrypt_page c.ino c.pg c.len c.offs c.lblk_num).2 ∧
                f.buf_start = min (j * PAGE_SIZE) in_len ∧ f.total_out = f.buf_start + c.len ∧
                f.disk_start = disk_start := by
            intro j f hj
            rcases getElem?_snoc hj with hjo | ⟨hjl, hf⟩
            · obtain ⟨c, hc, hrest⟩ := h.trace.feeds j f hjo
              refine ⟨c, ?_, hrest⟩
              rw [List.getElem?_append_left (List.getElem?_eq_some.mp hc).1]
              exact hc
            · subst hf
              refine ⟨⟨ino, in_page, min st.bytes_left PAGE_SIZE, 0, out_page.index, res.1⟩,
                ?_, hok0, by simp only [hres], ?_, rfl, rfl⟩
              · rw [hjl, hnf, ← hnc, List.getElem?_append_right (le_refl _)]
                simp
              · simp only []
                rw [hjl, hnf, hpl]
          have hmore1 : ∀ (j : Nat) (f : feed_call),
              (st.feeds ++ [⟨res.2, st.processed_len,
                st.processed_len + min st.bytes_left PAGE_SIZE, disk_start, fed.1⟩])[j]? = some f →
              f.more = (feed_bio C (replay C orig_bio ((st.feeds ++ [(⟨res.2, st.processed_len,
                st.processed_len + min st.bytes_left PAGE_SIZE, disk_start, fed.1⟩ :
                  feed_call)]).take j)) f).1 := by
            intro j f hj
            rcases getElem?_snoc hj with hjo | ⟨hjl, hf⟩
            · have hlt : j < st.feeds.length := (List.getElem?_eq_some.mp hjo).1
              rw [List.take_append_of_le_length (by omega)]
              exact (h.trace.more j f hjo).1
            · subst hf
              rw [hjl, List.take_left, ← h.trace.bio]
              simp only [feed_bio, hfed]
          have hbio : fed.2 = replay C orig_bio (st.feeds ++ [⟨res.2, st.processed_len,
                st.processed_len + min st.bytes_left PAGE_SIZE, disk_start, fed.1⟩]) := by
            rw [replay_snoc, ← h.trace.bio]
            simp only [feed_bio, hfed]
          have hreads : st.bv_reads ++ [st.bv + 1] = List.range ((st.feeds ++ [(⟨res.2,
              st.processed_len, st.processed_len + min st.bytes_left PAGE_SIZE, disk_start,
              fed.1⟩ : feed_call)]).length + 1) := by
            simp only [List.length_append, List.length_singleton]
            rw [h.trace.reads, hbv, hnf, List.range_succ (i + 1)]
          have hgoing1 : ∀ (j : Nat) (f : feed_call),
              (st.feeds ++ [⟨res.2, st.processed_len,
                st.processed_len + min st.bytes_left PAGE_SIZE, disk_start, fed.1⟩])[j]? = some f →
              j + 1 < (st.feeds ++ [(⟨res.2, st.processed_len,
                st.processed_len + min st.bytes_left PAGE_SIZE, disk_start, fed.1⟩ :
                  feed_call)]).length → f.more ≠ 0 := by
            intro j f hj hlt
            rcases getElem?_snoc hj with hjo | ⟨hjl, hf⟩
            · exact h.going f (List.mem_iff_getElem?.mpr ⟨j, hjo⟩)
            · simp at hlt
              omega
          split
          · rename_i hload
            obtain ⟨hl1, hl2⟩ := load_bv_page_none hload
            rw [hbv] at hl1 hl2
            refine ⟨⟨hcalls, hinplace, hfeeds, fun j f hj => ⟨hmore1 j f hj, hgoing1 j f hj⟩,
              hbio, hreads⟩, Or.inr (Or.inr (Or.inr ⟨rfl, by simp [hnc, hnf], by simp,
                by simp [hnf], by simp only [List.length_append, List.length_singleton, hnf]; exact hl1,
                by simp only [List.length_append, List.length_singleton, hnf]; exact hl2⟩))⟩
          · rename_i next_page hload
            obtain ⟨hl1, hl2⟩ := load_bv_page_some hload
            rw [hbv] at hl1 hl2
            split
            · rename_i hstop
              refine ⟨⟨hcalls, hinplace, hfeeds, fun j f hj => ⟨hmore1 j f hj, hgoing1 j f hj⟩,
                hbio, hreads⟩,
                Or.inr (Or.inl ⟨h.exit, by simp [hnc, hnf], by simp [hnf],
                  Or.inr ⟨⟨res.2, st.processed_len,
                    st.processed_len + min st.bytes_left PAGE_SIZE, disk_start, fed.1⟩, ?_, hstop⟩,
                  Or.inr (by simp only [List.length_append, List.length_singleton, hnf]
                             exact hl1)⟩)⟩
              simp
            · rename_i hgo
              have hinv : loop_inv F C ino disk_start in_pages orig_bio in_len (i + 1)
                  { exit := st.exit
                    in_pages := st.in_pages.set i { in_page with data := res.2 }
                    orig_bio := fed.2
                    bv := st.bv + 1
                    out_page := next_page
                    bytes_left := st.bytes_left - min st.bytes_left PAGE_SIZE
                    processed_len := st.processed_len + min st.bytes_left PAGE_SIZE
                    calls := st.calls ++ [⟨ino, in_page, min st.bytes_left PAGE_SIZE, 0,
                      out_page.index, res.1⟩]
                    feeds := st.feeds ++ [⟨res.2, st.processed_len,
                      st.processed_len + min st.bytes_left PAGE_SIZE, disk_start, fed.1⟩]
                    bv_reads := st.bv_reads ++ [st.bv + 1] } := by
                have hgoing : ∀ f ∈ st.feeds ++ [⟨res.2, st.processed_len,
                    st.processed_len + min st.bytes_left PAGE_SIZE, disk_start, fed.1⟩],
                    f.more ≠ 0 := by
                  intro f hf
                  rcases List.mem_append.mp hf with hf | hf
                  · exact h.going f hf
                  · simp at hf
                    subst hf
                    exact hgo
                refine ⟨⟨hcalls, hinplace, hfeeds, ?_, hbio, hreads⟩, hgoing, h.exit, by simp [hbv],
                  hl2, ?_, ?_, by simp [hnc], by simp [hnf], ?_, Or.inr hl1⟩
                · intro j f hj
                  exact ⟨hmore1 j f hj, fun _ => hgoing f (List.mem_iff_getElem?.mpr ⟨j, hj⟩)⟩
                · simp only [hbl, PAGE_SIZE]
                  omega
                · simp only [hbl, hpl, PAGE_SIZE]
                  omega
                · intro j hj
                  simp only []
                  rw [List.getElem?_set_ne (by omega)]
                  exact h.rest j (by omega)
              have := ih _ _ hinv
              rwa [show i + 1 + r = i + (r + 1) by omega] at this

theorem bio_page_fresh (dest : List bio_vec) (bi_max_vecs : Nat) :
    bio_page ⟨dest, 0, bi_max_vecs⟩ = (dest[0]?).map bio_vec.bv_page := by
  simp [bio_page, PAGE_SIZE]

theorem enc_post_of_inv {F : fscrypt} {find_get_page : address_space → Nat → Option page}
    {mapping : address_space} {ino : inode} {start len i : Nat} {st : encrypt_state}
    (h : enc_inv F find_get_page mapping ino start len i st) :
    enc_post F find_get_page mapping ino start len i st := by
  refine ⟨h.trace, Or.inl ⟨h.ret, by rw [h.ncalls, h.npages], by rw [h.npages],
    Or.inl h.npages, ?_⟩⟩
  rw [h.npages]
  rcases h.going with h0 | h1
  · left; omega
  · right
    simp only [PAGE_SIZE] at h1 ⊢
    omega

/-- The loop of `btrfs_encrypt_pages`, entered at iteration `i` in a state that
satisfies the invariant and allowed `r` more iterations, is left in a state
that satisfies `enc_post`. -/
theorem encrypt_loop_post (F : fscrypt) (find_get_page : address_space → Nat → Option page)
    (mapping : address_space) (ino : inode) (start len : Nat) :
    ∀ (r i : Nat) (st : encrypt_state),
      enc_inv F find_get_page mapping ino start len i st →
      enc_post F find_get_page mapping ino start len (i + r)
        (encrypt_loop F find_get_page mapping ino r st) := by
  intro r
  induction r with
  | zero =>
    intro i st h
    rw [encrypt_loop]
    exact enc_post_of_inv h
  | succ r ih =>
    intro i st h
    have hnp := h.npages
    have hnc := h.ncalls
    have hbl := h.bytes_left
    have hst := h.start
    rw [encrypt_loop]
    split
    · rename_i hnone
      refine ⟨⟨h.trace.calls, h.trace.pages, h.trace.nr, h.trace.total_in, h.trace.total_out⟩,
        Or.inr (Or.inr ⟨rfl, by simp [hnc, hnp], by simp only [hnp]; omega,
          by simp only [hnp]; exact h.going, ?_⟩)⟩
      simp only [hnp]
      rw [← hst]
      exact hnone
    · rename_i pt_page hpage
      simp only []
      generalize hct : F.fscrypt_encrypt_page ino pt_page (min st.bytes_left PAGE_SIZE) 0
        pt_page.index = ct_page
      have hcall : enc_call_ok F find_get_page mapping ino start len i
          ⟨pt_page, min st.bytes_left PAGE_SIZE, 0, pt_page.index, ct_page⟩ :=
        ⟨by rw [← hst]; exact hpage, by rw [hbl], rfl, rfl, by simp only [hct]⟩
      have hcalls : ∀ (j : Nat) (c : encrypt_call),
          (st.calls ++ [⟨pt_page, min st.bytes_left PAGE_SIZE, 0, pt_page.index, ct_page⟩])[j]?
            = some c → enc_call_ok F find_get_page mapping ino start len j c := by
        intro j c hj
        rcases getElem?_snoc hj with hjo | ⟨hjl, hc⟩
        · exact h.trace.calls j c hjo
        · subst hc; rw [hjl, hnc]; exact hcall
      split
      · rename_i e
        refine ⟨⟨hcalls, ?_, h.trace.nr, h.trace.total_in, h.trace.total_out⟩,
          Or.inr (Or.inl ⟨e, ⟨pt_page, min st.bytes_left PAGE_SIZE, 0, pt_page.index, .error e⟩,
            rfl, by simp [hnc, hnp], ?_, rfl, by simp only [hnp]; omega,
            by simp only [hnp]; exact h.going⟩)⟩
        · intro j ct hj
          obtain ⟨c, hc, hrest⟩ := h.trace.pages j ct hj
          refine ⟨c, ?_, hrest⟩
          rw [List.getElem?_append_left (List.getElem?_eq_some.mp hc).1]
          exact hc
        · simp only []
          rw [hnp, ← hnc, List.getElem?_append_right (le_refl _)]
          simp
      · rename_i ct
        have htrace : enc_trace_ok F find_get_page mapping ino start len
            { ret := st.ret
              pages := st.pages ++ [ct]
              nr_ct_pages := st.nr_ct_pages + 1
              total_in := st.total_in + min st.bytes_left PAGE_SIZE
              total_out := st.total_out + min st.bytes_left PAGE_SIZE
              start := (st.start + min st.bytes_left PAGE_SIZE) % U64_RANGE
              bytes_left := st.bytes_left - min st.bytes_left PAGE_SIZE
              calls := st.calls ++ [⟨pt_page, min st.bytes_left PAGE_SIZE, 0, pt_page.index,
                .ok ct⟩]
              log := st.log } := by
          refine ⟨hcalls, ?_, by simp [h.trace.nr], ?_, by simp [h.trace.total_out]⟩
          · intro j ct1 hj
            rcases getElem?_snoc hj with hjo | ⟨hjl, hc⟩
            · obtain ⟨c, hc, hrest⟩ := h.trace.pages j ct1 hjo
              refine ⟨c, ?_, hrest⟩
              simp only []
              rw [List.getElem?_append_left (List.getElem?_eq_some.mp hc).1]
              exact hc
            · subst hc
              refine ⟨⟨pt_page, min st.bytes_left PAGE_SIZE, 0, pt_page.index, .ok ct1⟩, ?_, rfl⟩
              simp only []
              rw [hjl, hnp, ← hnc, List.getElem?_append_right (le_refl _)]
              simp
          · have hg := h.going
            simp only [h.trace.total_in, hbl, hnp, List.length_append, List.length_singleton,
              PAGE_SIZE] at hg ⊢
            omega
        split
        · rename_i hdone
          refine ⟨htrace, Or.inl ⟨h.ret, by simp [hnc, hnp], by simp [hnp], Or.inr ⟨by simp, ?_⟩, ?_⟩⟩
          · simp only [hbl, hnp, List.length_append, List.length_singleton, PAGE_SIZE] at hdone ⊢
            omega
          · have hg := h.going
            simp only [hnp, List.length_append, List.length_singleton, PAGE_SIZE] at hg ⊢
            omega
        · rename_i hmore
          have hinv : enc_inv F find_get_page mapping ino start len (i + 1)
              { ret := st.ret
                pages := st.pages ++ [ct]
                nr_ct_pages := st.nr_ct_pages + 1
                total_in := st.total_in + min st.bytes_left PAGE_SIZE
                total_out := st.total_out + min st.bytes_left PAGE_SIZE
                start := (st.start + min st.bytes_left PAGE_SIZE) % U64_RANGE
                bytes_left := st.bytes_left - min st.bytes_left PAGE_SIZE
                calls := st.calls ++ [⟨pt_page, min st.bytes_left PAGE_SIZE, 0, pt_page.index,
                  .ok ct⟩]
                log := st.log } := by
            refine ⟨htrace, h.ret, by simp [hnp], by simp [hnc], ?_, ?_, ?_⟩
            · simp only [hbl, PAGE_SIZE] at hmore
              have hmin : min (len - i * 4096) 4096 = 4096 := by omega
              simp only [hst, hbl, block_start, PAGE_SIZE, U64_RANGE_eq, hmin]
              rw [if_neg (Nat.succ_ne_zero i)]
              split
              · rename_i h0
                subst h0
                rfl
              · omega
            · simp only [hbl, PAGE_SIZE]
              omega
            · right
              simp only [hbl, PAGE_SIZE] at hmore ⊢
              omega
          have := ih _ _ hinv
          rwa [show i + 1 + r = i + (r + 1) by omega] at this

/-- What every run of `btrfs_encrypt_pages` on a mapping with a host inode
satisfies. -/
theorem btrfs_encrypt_pages_post (F : fscrypt)
    (find_get_page : address_space → Nat → Option page) (mapping : address_space)
    (start len nr_pages : Nat) (ino : inode) (hhost : mapping.host = some ino) :
    enc_post F find_get_page mapping ino start len nr_pages
      (btrfs_encrypt_pages F find_get_page mapping start len nr_pages) := by
  have key : ∀ log : List String, enc_post F find_get_page mapping ino start len nr_pages
      (encrypt_loop F find_get_page mapping ino nr_pages
        { ret := some 0, pages := [], nr_ct_pages := 0, total_in := 0, total_out := 0
          start := start, bytes_left := len, calls := [], log := log }) := by
    intro log
    have h := encrypt_loop_post F find_get_page mapping ino start len nr_pages 0
      { ret := some 0, pages := [], nr_ct_pages := 0, total_in := 0, total_out := 0
        start := start, bytes_left := len, calls := [], log := log }
      ⟨⟨by simp, by simp, rfl, by simp, rfl⟩, rfl, rfl, rfl, rfl, by simp, Or.inl rfl⟩
    simpa using h
  have ha : ASSERT 1 = true := by decide
  unfold btrfs_encrypt_pages
  by_cases hb : ino.sectorsize = PAGE_SIZE
  · simpa [hhost, ha, hb] using key []
  · simpa [hhost, ha, hb] using key ["blocksize not same as page size"]

theorem loop_inv_init (F : fscrypt) (C : consumer) (ino : Option inode) (disk_start : Nat)
    (in_pages : List page) (orig_bio : bio) (in_len : Nat) :
    loop_inv F C ino disk_start in_pages orig_bio in_len 0
      (decrypt_bio_init in_pages orig_bio in_len ((orig_bio.bi_io_vec[0]?).map bio_vec.bv_page)) := by
  refine ⟨⟨?_, ?_, ?_, ?_, rfl, rfl⟩, ?_, rfl, rfl, rfl, ?_, ?_, rfl, rfl, ?_, Or.inl rfl⟩
  all_goals simp [decrypt_bio_init]

/-- A request with a buffer at its cursor has a buffer at position 0: the load
`out_page = bv->bv_page` before the loop is inside the array. -/
theorem load_bv_page_zero (orig_bio : bio) (out_page : page)
    (hp : bio_page orig_bio = some out_page) :
    load_bv_page orig_bio.bi_io_vec orig_bio.bi_max_vecs 0
      = some ((orig_bio.bi_io_vec[0]?).map bio_vec.bv_page) := by
  have hlen : 0 < orig_bio.bi_io_vec.length := by
    unfold bio_page at hp
    cases hb : orig_bio.bi_io_vec[orig_bio.bi_done / PAGE_SIZE]? with
    | none => rw [hb] at hp; cases hp
    | some b =>
      exact Nat.lt_of_le_of_lt (Nat.zero_le _) (List.getElem?_eq_some.mp hb).1
  unfold load_bv_page
  rw [if_pos (Or.inl hlen)]

/-- Every run of `btrfs_decrypt_bio_pages` either ends before the loop (workspace
given, or no mapped buffer at the request's cursor) or goes through the loop as
`decode_ran` describes. -/
theorem btrfs_decrypt_bio_pages_post (F : fscrypt) (C : consumer) (na_ws : Bool)
    (in_pages : List page) (disk_start : Nat) (orig_bio : bio) (in_len : Nat) :
    (decode_skipped in_pages orig_bio
        (btrfs_decrypt_bio_pages F C na_ws in_pages disk_start orig_bio in_len) ∧
      ((na_ws = true ∧ (btrfs_decrypt_bio_pages F C na_ws in_pages disk_start orig_bio
          in_len).ret = some (-EINVAL)) ∨
        ((bio_page orig_bio).bind page.mapping = none ∧
          (btrfs_decrypt_bio_pages F C na_ws in_pages disk_start orig_bio in_len).ret = none))) ∨
    (na_ws = false ∧ decode_ran F C in_pages disk_start orig_bio in_len
      (btrfs_decrypt_bio_pages F C na_ws in_pages disk_start orig_bio in_len)) := by
  unfold btrfs_decrypt_bio_pages
  cases na_ws with
  | true => left; simp [decode_skipped]
  | false =>
    cases hp : bio_page orig_bio with
    | none => left; simp [decode_skipped]
    | some out_page =>
      cases hm : out_page.mapping with
      | none => left; simp [decode_skipped, need_mapped_page, hm]
      | some mapping =>
        right
        have hpost := decrypt_bio_loop_post F C mapping.host disk_start in_pages orig_bio in_len
            (DIV_ROUND_UP in_len PAGE_SIZE) 0 _
            (loop_inv_init F C mapping.host disk_start in_pages orig_bio in_len)
        rw [Nat.zero_add] at hpost
        refine ⟨rfl, out_page, mapping, _, hp, hm, hpost, ?_⟩
        simp only [need_mapped_page, hm, Bool.false_eq_true, if_false,
          load_bv_page_zero orig_bio out_page hp]
        generalize decrypt_bio_loop F C mapping.host disk_start orig_bio.bi_io_vec
          orig_bio.bi_max_vecs (DIV_ROUND_UP in_len PAGE_SIZE) 0
          (decrypt_bio_init in_pages orig_bio in_len
            ((orig_bio.bi_io_vec[0]?).map bio_vec.bv_page)) = st
        cases he : st.exit with
        | finished => simp
        | returned e => simp
        | fault => simp

theorem fill_bvecs_length (bufs : List bio_vec) :
    ∀ (off : Nat) (d : List Nat), (fill_bvecs bufs off d).length = bufs.length := by
  induction bufs with
  | nil => intro off d; rfl
  | cons bv rest ih =>
    intro off d
    rw [fill_bvecs]
    split <;> simp [ih]

theorem fill_bvecs_block_buffers (bufs : List bio_vec) :
    ∀ (off : Nat) (d : List Nat), block_buffers bufs → block_buffers (fill_bvecs bufs off d) := by
  induction bufs with
  | nil => intro off d h; simpa [fill_bvecs] using h
  | cons bv rest ih =>
    intro off d h
    have hbv : bv.bv_page.data.length = PAGE_SIZE := h bv (List.mem_cons_self _ _)
    have hrest : block_buffers rest := fun b hb => h b (List.mem_cons_of_mem _ hb)
    rw [fill_bvecs]
    split
    · intro b hb
      rcases List.mem_cons.mp hb with hb | hb
      · rw [hb]; exact hbv
      · exact ih _ _ hrest b hb
    · intro b hb
      rcases List.mem_cons.mp hb with hb | hb
      · rw [hb]
        simp only [List.length_append, List.length_take, List.length_drop, hbv]
        omega
      · exact ih _ _ hrest b hb

theorem bvec_bytes_cons (bv : bio_vec) (rest : List bio_vec) :
    bvec_bytes (bv :: rest) = bv.bv_page.data ++ bvec_bytes rest := by
  simp [bvec_bytes]

theorem fill_bvecs_nil (bufs : List bio_vec) (h : block_buffers bufs) :
    fill_bvecs bufs 0 [] = bufs := by
  induction bufs with
  | nil => rfl
  | cons bv rest ih =>
    have hrest : block_buffers rest := fun b hb => h b (List.mem_cons_of_mem _ hb)
    rw [fill_bvecs]
    simp [PAGE_SIZE, ih hrest]

/-- The bytes of the buffers after `fill_bvecs`: the bytes `d` replace those at
positions `off .. off + d.length`. -/
theorem fill_bvecs_bytes (bufs : List bio_vec) :
    ∀ (off : Nat) (d : List Nat), block_buffers bufs → off + d.length ≤ bufs.length * PAGE_SIZE →
      bvec_bytes (fill_bvecs bufs off d)
        = (bvec_bytes bufs).take off ++ d ++ (bvec_bytes bufs).drop (off + d.length) := by
  induction bufs with
  | nil =>
    intro off d _ hle
    have hd : d = [] := List.eq_nil_of_length_eq_zero (by simp at hle; simp [hle])
    simp [fill_bvecs, bvec_bytes, hd]
  | cons bv rest ih =>
    intro off d h hle
    have hbv : bv.bv_page.data.length = PAGE_SIZE := h bv (List.mem_cons_self _ _)
    have hrest : block_buffers rest := fun b hb => h b (List.mem_cons_of_mem _ hb)
    have hle1 : off + d.length ≤ rest.length * PAGE_SIZE + PAGE_SIZE := by
      simpa [Nat.add_mul] using hle
    rw [fill_bvecs]
    split
    · rename_i hoff
      have h1 : List.take off bv.bv_page.data = bv.bv_page.data :=
        List.take_of_length_le (by omega)
      have h2 : List.drop (off + d.length) bv.bv_page.data = [] :=
        List.drop_of_length_le (by omega)
      rw [bvec_bytes_cons, bvec_bytes_cons, ih (off - PAGE_SIZE) d hrest (by omega),
        List.take_append_eq_append_take, List.drop_append_eq_append_drop, h1, h2, hbv,
        show off - PAGE_SIZE + d.length = off + d.length - PAGE_SIZE by omega]
      simp only [List.nil_append, List.append_assoc]
    · rename_i hoff
      simp only []
      rw [bvec_bytes_cons, bvec_bytes_cons]
      simp only []
      rw [List.take_append_eq_append_take, List.drop_append_eq_append_drop, hbv,
        show off - PAGE_SIZE = 0 by omega]
      rcases Nat.le_total d.length (PAGE_SIZE - off) with hd | hd
      · rw [Nat.min_eq_right hd, List.take_of_length_le (le_refl _),
          List.drop_of_length_le (le_refl _), fill_bvecs_nil rest hrest,
          show off + d.length - PAGE_SIZE = 0 by omega]
        simp
      · have h2 : List.drop (off + d.length) bv.bv_page.data = [] :=
          List.drop_of_length_le (by omega)
        have h3 : List.drop (off + (PAGE_SIZE - off)) bv.bv_page.data = [] :=
          List.drop_of_length_le (by omega)
        rw [Nat.min_eq_left hd, ih 0 (d.drop (PAGE_SIZE - off)) hrest
          (by simp only [List.length_drop]; omega), h2, h3]
        simp only [List.take_zero, List.append_nil, List.nil_append, List.append_assoc,
          List.length_drop, Nat.zero_add]
        rw [show d.length - (PAGE_SIZE - off) = off + d.length - PAGE_SIZE by omega,
          ← List.append_assoc (List.take (PAGE_SIZE - off) d), List.take_append_drop]

theorem zero_bvecs_length (bufs : List bio_vec) :
    ∀ off : Nat, (zero_bvecs bufs off).length = bufs.length := by
  induction bufs with
  | nil => intro off; rfl
  | cons bv rest ih =>
    intro off
    rw [zero_bvecs]
    split <;> simp [ih]

theorem zero_bvecs_block_buffers (bufs : List bio_vec) :
    ∀ off : Nat, block_buffers bufs → block_buffers (zero_bvecs bufs off) := by
  induction bufs with
  | nil => intro off h; simpa [zero_bvecs] using h
  | cons bv rest ih =>
    intro off h
    have hbv : bv.bv_page.data.length = PAGE_SIZE := h bv (List.mem_cons_self _ _)
    have hrest : block_buffers rest := fun b hb => h b (List.mem_cons_of_mem _ hb)
    rw [zero_bvecs]
    split
    · intro b hb
      rcases List.mem_cons.mp hb with hb | hb
      · rw [hb]; exact hbv
      · exact ih _ hrest b hb
    · intro b hb
      rcases List.mem_cons.mp hb with hb | hb
      · rw [hb]
        simp only [List.length_append, List.length_take, List.length_replicate, hbv]
        omega
      · exact ih _ hrest b hb

/-- The bytes of the buffers after `zero_bvecs`: those before `off` stay, the
others are zero. -/
theorem zero_bvecs_bytes (bufs : List bio_vec) :
    ∀ off : Nat, block_buffers bufs → off ≤ bufs.length * PAGE_SIZE →
      bvec_bytes (zero_bvecs bufs off)
        = (bvec_bytes bufs).take off ++ List.replicate (bufs.length * PAGE_SIZE - off) 0 := by
  induction bufs with
  | nil =>
    intro off _ hle
    simp [zero_bvecs, bvec_bytes]
  | cons bv rest ih =>
    intro off h hle
    have hbv : bv.bv_page.data.length = PAGE_SIZE := h bv (List.mem_cons_self _ _)
    have hrest : block_buffers rest := fun b hb => h b (List.mem_cons_of_mem _ hb)
    have hle1 : off ≤ rest.length * PAGE_SIZE + PAGE_SIZE := by
      simpa [Nat.add_mul] using hle
    have hlen : (bv :: rest).length * PAGE_SIZE = rest.length * PAGE_SIZE + PAGE_SIZE := by
      simp [Nat.add_mul]
    rw [zero_bvecs, hlen]
    split
    · rename_i hoff
      have h1 : List.take off bv.bv_page.data = bv.bv_page.data :=
        List.take_of_length_le (by omega)
      rw [bvec_bytes_cons, bvec_bytes_cons, ih (off - PAGE_SIZE) hrest (by omega),
        List.take_append_eq_append_take, h1, hbv,
        show rest.length * PAGE_SIZE - (off - PAGE_SIZE)
          = rest.length * PAGE_SIZE + PAGE_SIZE - off by omega]
      simp only [List.append_assoc]
    · rename_i hoff
      rw [bvec_bytes_cons, bvec_bytes_cons]
      simp only []
      rw [ih 0 hrest (Nat.zero_le _), List.take_append_eq_append_take, hbv,
        show off - PAGE_SIZE = 0 by omega]
      simp only [List.take_zero, List.append_nil, List.nil_append, List.append_assoc,
        Nat.sub_zero, List.append_replicate_replicate]
      rw [show PAGE_SIZE - off + rest.length * PAGE_SIZE
        = rest.length * PAGE_SIZE + PAGE_SIZE - off by omega]

theorem fed_bytes_snoc (fs : List feed_call) (f : feed_call) :
    fed_bytes (fs ++ [f]) = fed_bytes fs ++ feed_slice f := by
  simp [fed_bytes]

theorem spec_feed_eq (b : bio) (f : feed_call) :
    feed_bio spec_consumer b f =
      (if b.bi_done + ((feed_slice f).take (bio_capacity b - b.bi_done)).length
          < (fill_bvecs b.bi_io_vec b.bi_done
              ((feed_slice f).take (bio_capacity b - b.bi_done))).length * PAGE_SIZE
        then 1 else 0,
        ⟨fill_bvecs b.bi_io_vec b.bi_done ((feed_slice f).take (bio_capacity b - b.bi_done)),
          b.bi_done + ((feed_slice f).take (bio_capacity b - b.bi_done)).length,
          b.bi_max_vecs⟩) := rfl

/-- One call of the consumer of the specification on a request of whole block
buffers: the buffers stay whole blocks, the cursor advances by the bytes
copied, the slice (as much as fits) lands at the cursor, and `more` is 0 exactly
when the request is full. -/
theorem spec_feed (b : bio) (f : feed_call) (hwf : block_buffers b.bi_io_vec)
    (hdone : b.bi_done ≤ bio_capacity b) :
    block_buffers (feed_bio spec_consumer b f).2.bi_io_vec ∧
    (feed_bio spec_consumer b f).2.bi_io_vec.length = b.bi_io_vec.length ∧
    (feed_bio spec_consumer b f).2.bi_done
      = min (b.bi_done + (feed_slice f).length) (bio_capacity b) ∧
    bio_bytes (feed_bio spec_consumer b f).2
      = (bio_bytes b).take b.bi_done ++ (feed_slice f).take (bio_capacity b - b.bi_done)
        ++ (bio_bytes b).drop (min (b.bi_done + (feed_slice f).length) (bio_capacity b)) ∧
    ((feed_bio spec_consumer b f).1 = 0 ↔
      bio_capacity b ≤ b.bi_done + (feed_slice f).length) := by
  have hlen : ((feed_slice f).take (bio_capacity b - b.bi_done)).length
      = min (bio_capacity b - b.bi_done) (feed_slice f).length := List.length_take _ _
  have hsum : b.bi_done + min (bio_capacity b - b.bi_done) (feed_slice f).length
      = min (b.bi_done + (feed_slice f).length) (bio_capacity b) := by omega
  rw [spec_feed_eq]
  simp only []
  refine ⟨fill_bvecs_block_buffers _ _ _ hwf, fill_bvecs_length _ _ _, ?_, ?_, ?_⟩
  · rw [hlen, hsum]
  · simp only [bio_bytes]
    rw [fill_bvecs_bytes _ _ _ hwf (by rw [hlen]; simp only [bio_capacity] at *; omega), hlen,
      hsum]
  · rw [fill_bvecs_length, hlen]
    simp only [bio_capacity] at hdone ⊢
    split <;> omega

/-- A fresh request of whole block buffers after a sequence of consumer calls: its
bytes are the bytes fed (as many as fit) followed by what the buffers held
before. -/
theorem replay_spec (dest : List bio_vec) (mx : Nat) (hwf : block_buffers dest)
    (fs : List feed_call) :
    block_buffers (replay spec_consumer ⟨dest, 0, mx⟩ fs).bi_io_vec ∧
    (replay spec_consumer ⟨dest, 0, mx⟩ fs).bi_io_vec.length = dest.length ∧
    (replay spec_consumer ⟨dest, 0, mx⟩ fs).bi_done
      = min (fed_bytes fs).length (dest.length * PAGE_SIZE) ∧
    bio_bytes (replay spec_consumer ⟨dest, 0, mx⟩ fs)
      = (fed_bytes fs).take (dest.length * PAGE_SIZE)
        ++ (bvec_bytes dest).drop (min (fed_bytes fs).length (dest.length * PAGE_SIZE)) := by
  induction fs using List.reverseRecOn with
  | nil => simp [replay, fed_bytes, hwf, bio_bytes]
  | append_singleton fs f ih =>
    obtain ⟨h1, h2, h3, h4⟩ := ih
    have hcap : bio_capacity (replay spec_consumer ⟨dest, 0, mx⟩ fs) = dest.length * PAGE_SIZE := by
      rw [bio_capacity, h2]
    obtain ⟨g1, g2, g3, g4, _⟩ := spec_feed (replay spec_consumer ⟨dest, 0, mx⟩ fs) f h1
      (by rw [hcap, h3]; omega)
    rw [replay_snoc, fed_bytes_snoc, List.length_append]
    refine ⟨g1, by rw [g2, h2], by rw [g3, hcap, h3]; omega, ?_⟩
    rw [g4, hcap, h3, h4]
    generalize fed_bytes fs = S
    generalize feed_slice f = s
    generalize bvec_bytes dest = D
    generalize dest.length * PAGE_SIZE = cap
    have hA : (S.take cap).length = min S.length cap := by
      rw [List.length_take]; omega
    have e1 : List.take (min S.length cap) (S.take cap ++ D.drop (min S.length cap))
        = S.take cap := List.take_left' hA
    have e2 : List.drop (min (min S.length cap + s.length) cap)
        (S.take cap ++ D.drop (min S.length cap))
        = D.drop (min (S.length + s.length) cap) := by
      rw [List.drop_append_eq_append_drop, List.drop_of_length_le (by rw [hA]; omega), hA,
        List.drop_drop, List.nil_append]
      congr 1
      omega
    have e3 : s.take (cap - min S.length cap) = s.take (cap - S.length) := by
      congr 1
      omega
    rw [e1, e2, e3, List.take_append_eq_append_take]

theorem div_round_up_eq (n : Nat) (h : n + PAGE_SIZE ≤ U64_RANGE) :
    DIV_ROUND_UP n PAGE_SIZE = (n + 4095) / 4096 := by
  simp only [DIV_ROUND_UP, PAGE_SIZE, U64_RANGE_eq] at h ⊢
  rw [Nat.mod_eq_of_lt (by omega), show n + 4096 - 1 = n + 4095 by omega]

theorem fed_bytes_take_length (in_len : Nat) (fs : List feed_call)
    (h : ∀ (i : Nat) (f : feed_call), fs[i]? = some f →
      (feed_slice f).length = min (in_len - i * PAGE_SIZE) PAGE_SIZE) :
    ∀ j : Nat, j ≤ fs.length → (fed_bytes (fs.take j)).length = min (j * PAGE_SIZE) in_len := by
  intro j
  induction j with
  | zero => intro _; simp [fed_bytes]
  | succ j ih =>
    intro hj
    have hlt : j < fs.length := by omega
    have hget : fs[j]? = some fs[j] := List.getElem?_eq_getElem hlt
    rw [List.take_succ, hget, Option.toList_some, fed_bytes_snoc, List.length_append, ih (by omega),
      h j _ hget]
    simp only [PAGE_SIZE]
    omega

theorem fed_bytes_length (in_len : Nat) (fs : List feed_call)
    (h : ∀ (i : Nat) (f : feed_call), fs[i]? = some f →
      (feed_slice f).length = min (in_len - i * PAGE_SIZE) PAGE_SIZE) :
    (fed_bytes fs).length = min (fs.length * PAGE_SIZE) in_len := by
  have := fed_bytes_take_length in_len fs h fs.length (le_refl _)
  rwa [List.take_length] at this

theorem eq_map_range {α : Type} (l : List α) (g : Nat → α) (T : Nat) (hl : l.length = T)
    (h : ∀ (j : Nat) (x : α), l[j]? = some x → x = g j) : l = (List.range T).map g := by
  apply List.ext_getElem?
  intro j
  rcases Nat.lt_or_ge j T with hj | hj
  · have hget : l[j]? = some l[j] := List.getElem?_eq_getElem (by omega)
    rw [hget, List.getElem?_map, List.getElem?_range hj, h j _ hget]
    rfl
  · rw [List.getElem?_eq_none (by omega), List.getElem?_eq_none (by simp; omega)]

/-- A streaming decode, with the consumer of the specification, in which every
block that is processed is present and decrypts: into a fresh request of whole
block buffers `dest` stored in an array of `mx` entries, with ciphertext pages
`cp k` and destination pages `dp k`. The loop processes `blocks_done in_len
dest.length` blocks and feeds their plaintext. When the array has an entry after
the last block processed, the request is zero filled from its cursor on and 0 is
returned; otherwise the load `out_page = bv->bv_page` after the last feed is
outside the array: the run faults there, without zero fill, and the bytes after
those fed are what the buffers held before. -/
theorem decode_spec (F : fscrypt) (in_pages : List page) (disk_start : Nat) (dest : List bio_vec)
    (mx in_len : Nat) (m : address_space) (cp dp : Nat → page)
    (hwf : block_buffers dest)
    (hlen : in_len + PAGE_SIZE ≤ U64_RANGE)
    (hne : 0 < dest.length) (hmx : dest.length ≤ mx)
    (hdest : ∀ k : Nat, k < dest.length → dest[k]? = some ⟨dp k⟩)
    (hmap : (dp 0).mapping = some m)
    (hin : ∀ k : Nat, k < blocks_done in_len dest.length → in_pages[k]? = some (cp k))
    (hdec : ∀ k : Nat, k < blocks_done in_len dest.length →
      (block_plain F m.host cp dp in_len k).1 = 0 ∧
      (block_plain F m.host cp dp in_len k).2.length = PAGE_SIZE) :
    (btrfs_decrypt_bio_pages F spec_consumer false in_pages disk_start ⟨dest, 0, mx⟩ in_len).calls
      = (List.range (blocks_done in_len dest.length)).map
          (fun k => ⟨m.host, cp k, block_len in_len k, 0, (dp k).index, 0⟩) ∧
    (btrfs_decrypt_bio_pages F spec_consumer false in_pages disk_start ⟨dest, 0, mx⟩
      in_len).feeds.length = blocks_done in_len dest.length ∧
    fed_bytes (btrfs_decrypt_bio_pages F spec_consumer false in_pages disk_start ⟨dest, 0, mx⟩
      in_len).feeds
      = ((List.range (blocks_done in_len dest.length)).map
          (fun k => (block_plain F m.host cp dp in_len k).2.take (block_len in_len k))).flatten ∧
    (fed_bytes (btrfs_decrypt_bio_pages F spec_consumer false in_pages disk_start ⟨dest, 0, mx⟩
      in_len).feeds).length = min in_len (dest.length * PAGE_SIZE) ∧
    (btrfs_decrypt_bio_pages F spec_consumer false in_pages disk_start ⟨dest, 0, mx⟩
      in_len).bv_reads = List.range (blocks_done in_len dest.length + 1) ∧
    block_buffers (btrfs_decrypt_bio_pages F spec_consumer false in_pages disk_start
      ⟨dest, 0, mx⟩ in_len).orig_bio.bi_io_vec ∧
    (btrfs_decrypt_bio_pages F spec_consumer false in_pages disk_start ⟨dest, 0, mx⟩
      in_len).orig_bio.bi_io_vec.length = dest.length ∧
    (blocks_done in_len dest.length < mx →
      (btrfs_decrypt_bio_pages F spec_consumer false in_pages disk_start ⟨dest, 0, mx⟩
        in_len).ret = some 0 ∧
      (btrfs_decrypt_bio_pages F spec_consumer false in_pages disk_start ⟨dest, 0, mx⟩
        in_len).zero_fills = 1 ∧
      bio_bytes (btrfs_decrypt_bio_pages F spec_consumer false in_pages disk_start ⟨dest, 0, mx⟩
        in_len).orig_bio
        = fed_bytes (btrfs_decrypt_bio_pages F spec_consumer false in_pages disk_start
            ⟨dest, 0, mx⟩ in_len).feeds
          ++ List.replicate (dest.length * PAGE_SIZE - min in_len (dest.length * PAGE_SIZE)) 0) ∧
    (mx ≤ blocks_done in_len dest.length →
      (btrfs_decrypt_bio_pages F spec_consumer false in_pages disk_start ⟨dest, 0, mx⟩
        in_len).ret = none ∧
      (btrfs_decrypt_bio_pages F spec_consumer false in_pages disk_start ⟨dest, 0, mx⟩
        in_len).zero_fills = 0 ∧
      bio_bytes (btrfs_decrypt_bio_pages F spec_consumer false in_pages disk_start ⟨dest, 0, mx⟩
        in_len).orig_bio
        = fed_bytes (btrfs_decrypt_bio_pages F spec_consumer false in_pages disk_start
            ⟨dest, 0, mx⟩ in_len).feeds
          ++ (bvec_bytes dest).drop (min in_len (dest.length * PAGE_SIZE))) := by
  have ht := div_round_up_eq in_len hlen
  simp only [blocks_done] at *
  generalize hr : btrfs_decrypt_bio_pages F spec_consumer false in_pages disk_start
    ⟨dest, 0, mx⟩ in_len = r
  have hpost := btrfs_decrypt_bio_pages_post F spec_consumer false in_pages disk_start
    ⟨dest, 0, mx⟩ in_len
  rw [hr] at hpost
  have hpage : bio_page ⟨dest, 0, mx⟩ = some (dp 0) := by
    rw [bio_page_fresh, hdest 0 hne]; rfl
  rcases hpost with ⟨_, h | h⟩ | ⟨_, out_page, mapping, st, hp, hm, post, hcalls, hfeeds, hreads,
    _, hexit⟩
  · exact absurd h.1 (by simp)
  · rw [hpage] at h
    simp [hmap] at h
  · rw [hpage] at hp
    cases hp
    rw [hmap] at hm
    cases hm
    generalize hT : DIV_ROUND_UP in_len PAGE_SIZE = T at *
    -- a logged call is made for a block of the stream and on a buffer of the request
    have hcl : st.calls.length ≤ T := by
      rcases post.exit with ⟨_, _, _, _, h1, _, _, h2⟩ | ⟨_, h1, h2, _⟩ | ⟨_, h1, h2, _⟩ |
        ⟨_, h1, _, h2, _⟩ <;> omega
    have hfc : st.feeds.length ≤ st.calls.length := by
      rcases post.exit with ⟨_, _, _, _, h1, _⟩ | ⟨_, h1, _⟩ | ⟨_, h1, _⟩ | ⟨_, h1, _⟩ <;> omega
    have hcn : ∀ (j : Nat) (c : decrypt_call), st.calls[j]? = some c → j < dest.length := by
      intro j c hc
      obtain ⟨_, _, _, _, c5, _⟩ := post.trace.calls j c hc
      simp only at c5
      cases hd : dest[j]? with
      | none => rw [hd] at c5; cases c5
      | some b => exact (List.getElem?_eq_some.mp hd).1
    have hcT : ∀ (j : Nat) (c : decrypt_call), st.calls[j]? = some c → j < T := by
      intro j c hc
      have := (List.getElem?_eq_some.mp hc).1
      omega
    have hcall : ∀ (j : Nat) (c : decrypt_call), st.calls[j]? = some c →
        c = ⟨m.host, cp j, block_len in_len j, 0, (dp j).index, 0⟩ := by
      intro j c hc
      have hjn := hcn j c hc
      have hjT := hcT j c hc
      have hj : j < min T dest.length := by omega
      obtain ⟨c1, c2, c3, c4, c5, c6⟩ := post.trace.calls j c hc
      obtain ⟨cino, cpg, clen, coffs, clblk, cret⟩ := c
      simp only at c1 c2 c3 c4 c5 c6
      rw [hin j hj] at c2
      rw [hdest j hjn] at c5
      simp only [Option.map_some', Option.some.injEq] at c2 c5
      have h0 := (hdec j hj).1
      simp only [block_plain, block_len] at h0
      subst c1 c2 c3 c4 c5
      rw [h0] at c6
      subst c6
      rfl
    have hslice : ∀ (j : Nat) (f : feed_call), st.feeds[j]? = some f →
        j < min T dest.length ∧
        feed_slice f = (block_plain F m.host cp dp in_len j).2.take (block_len in_len j) := by
      intro j f hf
      obtain ⟨c, hc, _, f1, f2, f3, _⟩ := post.trace.feeds j f hf
      have hjn := hcn j c hc
      have hjT := hcT j c hc
      rw [hcall j c hc] at f1 f3
      simp only at f1 f3
      rw [feed_slice, f1, f3, Nat.add_sub_cancel_left]
      exact ⟨by omega, rfl⟩
    have hslen : ∀ (j : Nat) (f : feed_call), st.feeds[j]? = some f →
        (feed_slice f).length = min (in_len - j * PAGE_SIZE) PAGE_SIZE := by
      intro j f hf
      obtain ⟨hj, hs⟩ := hslice j f hf
      rw [hs, List.length_take, (hdec j hj).2, block_len]
      omega
    -- when the consumer reports that no destination remains
    have hmore : ∀ (j : Nat) (f : feed_call), st.feeds[j]? = some f →
        (f.more = 0 ↔ dest.length ≤ j + 1 ∧ dest.length * PAGE_SIZE ≤ in_len) := by
      intro j f hf
      have hjM : j < st.feeds.length := (List.getElem?_eq_some.mp hf).1
      obtain ⟨hj, _⟩ := hslice j f hf
      have hm := (post.trace.more j f hf).1
      obtain ⟨w1, w2, w3, _⟩ := replay_spec dest mx hwf (st.feeds.take j)
      have hcap : bio_capacity (replay spec_consumer ⟨dest, 0, mx⟩ (st.feeds.take j))
          = dest.length * PAGE_SIZE := by
        rw [bio_capacity, w2]
      obtain ⟨_, _, _, _, w5⟩ := spec_feed (replay spec_consumer ⟨dest, 0, mx⟩
        (st.feeds.take j)) f w1 (by rw [hcap, w3]; omega)
      rw [← hm, hcap, w3, fed_bytes_take_length in_len st.feeds hslen j (by omega),
        hslen j f hf] at w5
      rw [w5]
      simp only [PAGE_SIZE]
      omega
    -- how the loop was left
    have hMP : st.feeds.length = min T dest.length ∧ st.calls.length = min T dest.length ∧
        ((st.exit = .finished ∧ min T dest.length < mx) ∨
          (st.exit = .fault ∧ mx ≤ min T dest.length)) := by
      have hMn : st.calls.length ≤ dest.length := by
        rcases Nat.eq_zero_or_pos st.calls.length with h0 | h0
        · omega
        · have := hcn (st.calls.length - 1) _
            (List.getElem?_eq_getElem (show st.calls.length - 1 < st.calls.length by omega))
          omega
      rcases post.exit with ⟨e, c, _, he, _, hc, hce, hlt⟩ | ⟨hfin, hnc, hM, hstop, hload⟩ |
        ⟨_, hnc, hlt, hgo, hmiss⟩ | ⟨hfault, hnc, h1, hM, hl1, hl2⟩
      · rw [hcall _ c hc] at hce
        exact absurd hce.symm he
      · have hMT : st.feeds.length = min T dest.length := by
          rcases hstop with h | ⟨f, hf, hm0⟩
          · omega
          · have hpos : 0 < st.feeds.length := by
              rcases Nat.eq_zero_or_pos st.feeds.length with h0 | h0
              · have : st.feeds = [] := List.eq_nil_of_length_eq_zero h0
                rw [this] at hf
                simp at hf
              · exact h0
            have := (hmore _ f hf).mp hm0
            simp only [PAGE_SIZE] at this
            omega
        simp only at hload
        exact ⟨hMT, by omega, Or.inl ⟨hfin, by omega⟩⟩
      · exfalso
        have hMn1 : st.feeds.length < dest.length := by
          by_contra hge
          have hlt1 : dest.length - 1 < st.feeds.length := by omega
          have hf := List.getElem?_eq_getElem hlt1
          have hne0 := hgo _ (List.mem_iff_getElem?.mpr ⟨_, hf⟩)
          have := (hmore _ _ hf).not.mp hne0
          simp only [PAGE_SIZE] at this
          omega
        rcases hmiss with h | h
        · rw [hin _ (by omega)] at h
          cases h
        · simp only at h
          rw [hdest _ hMn1] at h
          cases h
      · simp only at hl1 hl2
        exact ⟨by omega, by omega, Or.inr ⟨hfault, by omega⟩⟩
    obtain ⟨hM, hC, hex⟩ := hMP
    obtain ⟨w1, w2, w3, w4⟩ := replay_spec dest mx hwf st.feeds
    have hbio : st.orig_bio = replay spec_consumer ⟨dest, 0, mx⟩ st.feeds := post.trace.bio
    have hfl : (fed_bytes st.feeds).length = min in_len (dest.length * PAGE_SIZE) := by
      rw [fed_bytes_length in_len st.feeds hslen, hM]
      simp only [PAGE_SIZE]
      omega
    have hslices : st.feeds.map feed_slice = (List.range (min T dest.length)).map
        (fun k => (block_plain F m.host cp dp in_len k).2.take (block_len in_len k)) := by
      apply eq_map_range _ _ _ (by rw [List.length_map, hM])
      intro j x hx
      rw [List.getElem?_map] at hx
      cases hf : st.feeds[j]? with
      | none => rw [hf] at hx; simp at hx
      | some f =>
        rw [hf] at hx
        simp only [Option.map_some', Option.some.injEq] at hx
        rw [← hx]
        exact (hslice j f hf).2
    have hfed : fed_bytes st.feeds = ((List.range (min T dest.length)).map
        (fun k => (block_plain F m.host cp dp in_len k).2.take (block_len in_len k))).flatten := by
      rw [fed_bytes, hslices]
    have htake : (fed_bytes st.feeds).take (dest.length * PAGE_SIZE) = fed_bytes st.feeds :=
      List.take_of_length_le (by rw [hfl]; omega)
    have hbytes : bio_bytes (replay spec_consumer ⟨dest, 0, mx⟩ st.feeds)
        = fed_bytes st.feeds ++ (bvec_bytes dest).drop (min in_len (dest.length * PAGE_SIZE)) := by
      rw [w4, htake, hfl]
      congr 2
      omega
    have hdone : (replay spec_consumer ⟨dest, 0, mx⟩ st.feeds).bi_done
        = (fed_bytes st.feeds).length := by
      rw [w3, hfl]
      omega
    have hbb : block_buffers r.orig_bio.bi_io_vec ∧ r.orig_bio.bi_io_vec.length = dest.length := by
      rcases hexit with ⟨_, _, _, x3⟩ | ⟨e, _, _, _, x3⟩ | ⟨_, _, _, x3⟩
      · rw [x3, hbio]
        exact ⟨zero_bvecs_block_buffers _ _ w1, (zero_bvecs_length _ _).trans w2⟩
      · rw [x3, hbio]
        exact ⟨w1, w2⟩
      · rw [x3, hbio]
        exact ⟨w1, w2⟩
    refine ⟨?_, by rw [hfeeds, hM], by rw [hfeeds, hfed], by rw [hfeeds, hfl],
      by rw [hreads, post.trace.reads, hM], hbb.1, hbb.2, ?_, ?_⟩
    · rw [hcalls]
      exact eq_map_range _ _ _ hC (fun j c hc => hcall j c hc)
    · intro hlt
      rcases hex with ⟨hfin, _⟩ | ⟨_, hle⟩
      · rcases hexit with ⟨_, x1, x2, x3⟩ | ⟨e, hx, _⟩ | ⟨hx, _⟩
        · refine ⟨x1, x2, ?_⟩
          rw [x3, hbio, hfeeds]
          generalize replay spec_consumer ⟨dest, 0, mx⟩ st.feeds = b at w1 w2 hbytes hdone
          show bvec_bytes (zero_bvecs b.bi_io_vec b.bi_done) = _
          simp only [bio_bytes] at hbytes
          rw [zero_bvecs_bytes _ _ w1 (by rw [w2, hdone, hfl]; omega), w2, hdone, hbytes,
            List.take_left' rfl, hfl]
        · rw [hfin] at hx
          cases hx
        · rw [hfin] at hx
          cases hx
      · omega
    · intro hle
      rcases hex with ⟨_, hlt⟩ | ⟨hfault, _⟩
      · omega
      · rcases hexit with ⟨hx, _⟩ | ⟨e, hx, _⟩ | ⟨_, x1, x2, x3⟩
        · rw [hfault] at hx
          cases hx
        · rw [hfault] at hx
          cases hx
        · refine ⟨x1, x2, ?_⟩
          rw [x3, hbio, hfeeds, hbytes]

theorem block_start_eq (start len j : Nat) (hrange : start + len ≤ U64_RANGE)
    (hj : j * PAGE_SIZE < len) : block_start start j = start + j * PAGE_SIZE := by
  simp only [block_start, PAGE_SIZE, U64_RANGE_eq] at *
  split
  · rename_i h0
    subst h0
    simp
  · exact Nat.mod_eq_of_lt (by omega)

/-- An encode in which every block is present and encrypts: see the claim C4. -/
theorem encode_ok (F : fscrypt) (find_get_page : address_space → Nat → Option page)
    (mapping : address_space) (ino : inode) (start len nr_pages : Nat) (pt ct : Nat → page)
    (hhost : mapping.host = some ino)
    (hlen : 1 ≤ len) (hrange : start + len ≤ U64_RANGE)
    (hnr : nr_blocks len ≤ nr_pages)
    (hcache : ∀ k : Nat, k < nr_blocks len →
      find_get_page mapping ((start + k * PAGE_SIZE) >>> PAGE_SHIFT) = some (pt k))
    (henc : ∀ k : Nat, k < nr_blocks len →
      F.fscrypt_encrypt_page ino (pt k) (block_len len k) 0 (pt k).index = .ok (ct k)) :
    (btrfs_encrypt_pages F find_get_page mapping start len nr_pages).ret = some 0 ∧
    (btrfs_encrypt_pages F find_get_page mapping start len nr_pages).nr_ct_pages
      = nr_blocks len ∧
    (btrfs_encrypt_pages F find_get_page mapping start len nr_pages).pages
      = (List.range (nr_blocks len)).map ct ∧
    (btrfs_encrypt_pages F find_get_page mapping start len nr_pages).calls
      = (List.range (nr_blocks len)).map
          (fun k => ⟨pt k, block_len len k, 0, (pt k).index, .ok (ct k)⟩) ∧
    (btrfs_encrypt_pages F find_get_page mapping start len nr_pages).total_in = len ∧
    (btrfs_encrypt_pages F find_get_page mapping start len nr_pages).total_out = len := by
  have post := btrfs_encrypt_pages_post F find_get_page mapping start len nr_pages ino hhost
  generalize btrfs_encrypt_pages F find_get_page mapping start len nr_pages = r at post
  have hn : nr_blocks len = (len + 4095) / 4096 := by
    simp only [nr_blocks, PAGE_SIZE]
    rw [show len + 4096 - 1 = len + 4095 by omega]
  have hcall : ∀ (j : Nat) (c : encrypt_call), r.calls[j]? = some c → j < nr_blocks len →
      c = ⟨pt j, block_len len j, 0, (pt j).index, .ok (ct j)⟩ := by
    intro j c hc hj
    obtain ⟨c1, c2, c3, c4, c5⟩ := post.trace.calls j c hc
    rw [block_start_eq start len j hrange (by simp only [PAGE_SIZE]; omega), hcache j hj] at c1
    obtain ⟨cpt, clen, coffs, clblk, cct⟩ := c
    simp only [Option.some.injEq] at c1 c2 c3 c4 c5
    subst c1 c2 c3 c4
    have := henc j hj
    simp only [block_len] at this
    rw [this] at c5
    subst c5
    rfl
  rcases post.exit with ⟨hret, hnc, hP, hstop, hgo⟩ | ⟨e, c, _, _, hc, hce, _, hgo⟩ |
    ⟨_, _, _, hgo, hmiss⟩
  · have hPn : r.pages.length = nr_blocks len := by
      simp only [PAGE_SIZE] at hstop hgo
      omega
    have hcalls : r.calls = (List.range (nr_blocks len)).map
        (fun k => ⟨pt k, block_len len k, 0, (pt k).index, .ok (ct k)⟩) :=
      eq_map_range _ _ _ (by rw [hnc, hPn])
        (fun j c hc => hcall j c hc (by have := (List.getElem?_eq_some.mp hc).1; omega))
    refine ⟨hret, by rw [post.trace.nr, hPn], ?_, hcalls, ?_, ?_⟩
    · apply eq_map_range _ _ _ hPn
      intro j x hx
      obtain ⟨c, hc, hok⟩ := post.trace.pages j x hx
      rw [hcall j c hc (by have := (List.getElem?_eq_some.mp hx).1; omega)] at hok
      simp only [Except.ok.injEq] at hok
      exact hok.symm
    · rw [post.trace.total_in, hPn]
      simp only [PAGE_SIZE]
      omega
    · rw [post.trace.total_out, post.trace.total_in, hPn]
      simp only [PAGE_SIZE]
      omega
  · have hlt : r.pages.length < nr_blocks len := by
      simp only [PAGE_SIZE] at hgo
      omega
    rw [hcall _ c hc hlt] at hce
    cases hce
  · have hlt : r.pages.length < nr_blocks len := by
      simp only [PAGE_SIZE] at hgo
      omega
    rw [block_start_eq start len _ hrange (by simp only [PAGE_SIZE]; omega), hcache _ hlt]
      at hmiss
    cases hmiss

theorem map_range_getElem? {α : Type} (g : Nat → α) (n k : Nat) (hk : k < n) :
    ((List.range n).map g)[k]? = some (g k) := by
  rw [List.getElem?_map, List.getElem?_range hk]
  rfl

theorem demo_page_length (index fill : Nat) : (demo_page index fill).data.length = PAGE_SIZE :=
  List.length_replicate _ _

theorem demo_bio_length (n first : Nat) : (demo_bio n first).bi_io_vec.length = n := by
  simp [demo_bio]

theorem demo_bio_getElem? (n first k : Nat) (hk : k < n) :
    (demo_bio n first).bi_io_vec[k]? = some ⟨demo_page (first + k) 170⟩ :=
  map_range_getElem? _ n k hk

theorem demo_bio_block_buffers (n first : Nat) : block_buffers (demo_bio n first).bi_io_vec := by
  intro bv hbv
  obtain ⟨k, _, rfl⟩ := List.mem_map.mp hbv
  exact demo_page_length _ _

theorem xor_bytes_length (d : List Nat) (lblk_num : Nat) :
    (xor_bytes d lblk_num).length = d.length := by
  simp [xor_bytes]

theorem shift_block (a k : Nat) :
    (a * PAGE_SIZE + k * PAGE_SIZE) >>> PAGE_SHIFT = a + k := by
  rw [Nat.shiftRight_eq_div_pow]
  simp only [PAGE_SIZE, PAGE_SHIFT]
  norm_num
  omega

theorem xor_bytes_demo_page (index fill lblk_num : Nat) :
    xor_bytes (demo_page index fill).data lblk_num
      = List.replicate PAGE_SIZE (fill ^^^ (lblk_num + 1)) :=
  List.map_replicate

theorem demo_bio_bytes (n first : Nat) :
    bvec_bytes (demo_bio n first).bi_io_vec = List.replicate (n * PAGE_SIZE) 170 := by
  simp only [demo_bio, bvec_bytes, List.map_map]
  induction n with
  | zero => rfl
  | succ n ih =>
    rw [List.range_succ, List.map_append, List.flatten_append, ih, Nat.succ_mul]
    simp only [List.map_cons, List.map_nil, List.flatten_cons, List.flatten_nil, List.append_nil,
      Function.comp_apply, demo_page, List.append_replicate_replicate]

/-- The runs `demo_decode spec_consumer mx`: the transform calls, the bytes fed, the positions at
which the destination cursor was loaded, and what becomes of the run after the
load at position 3: with an array of more than three entries it zero fills the
rest of the last buffer and returns 0, with an array of three entries it faults
at the load and the rest of the last buffer keeps its bytes `0xaa`. -/
theorem demo_decode_ok (mx : Nat) (hmx : 3 ≤ mx) :
    (demo_decode spec_consumer mx).calls = [⟨some demo_inode, demo_page 0 23, PAGE_SIZE, 0, 1, 0⟩,
      ⟨some demo_inode, demo_page 0 21, PAGE_SIZE, 0, 2, 0⟩,
      ⟨some demo_inode, demo_page 0 19, 1808, 0, 3, 0⟩] ∧
    fed_bytes (demo_decode spec_consumer mx).feeds = List.replicate PAGE_SIZE 21 ++ (List.replicate PAGE_SIZE 22
      ++ List.replicate 1808 23) ∧
    (demo_decode spec_consumer mx).bv_reads = [0, 1, 2, 3] ∧
    (3 < mx → (demo_decode spec_consumer mx).ret = some 0 ∧ (demo_decode spec_consumer mx).zero_fills = 1 ∧
      bio_bytes (demo_decode spec_consumer mx).orig_bio
        = List.replicate PAGE_SIZE 21 ++ (List.replicate PAGE_SIZE 22 ++ List.replicate 1808 23)
          ++ List.replicate 2288 0) ∧
    (mx ≤ 3 → (demo_decode spec_consumer mx).ret = none ∧ (demo_decode spec_consumer mx).zero_fills = 0 ∧
      bio_bytes (demo_decode spec_consumer mx).orig_bio
        = List.replicate PAGE_SIZE 21 ++ (List.replicate PAGE_SIZE 22 ++ List.replicate 1808 23)
          ++ List.replicate 2288 170) := by
  have hT : blocks_done 10000 (demo_bio 3 1).bi_io_vec.length = 3 := by
    rw [demo_bio_length]
    decide
  have hcp : ∀ k : Nat, k < 3 → demo_ct_pages[k]? = some (demo_page 0 (23 - 2 * k)) := by
    intro k hk
    interval_cases k <;> rfl
  obtain ⟨h1, _, h3, _, h5, _, _, h8, h9⟩ := decode_spec good_fscrypt demo_ct_pages PAGE_SIZE
    (demo_bio 3 1).bi_io_vec mx 10000 demo_mapping (fun k => demo_page 0 (23 - 2 * k))
    (fun k => demo_page (1 + k) 170) (demo_bio_block_buffers 3 1) (by decide)
    (by rw [demo_bio_length]; decide) (by rw [demo_bio_length]; exact hmx)
    (fun k hk => demo_bio_getElem? 3 1 k (by rw [demo_bio_length] at hk; exact hk)) rfl
    (fun k hk => hcp k (by rw [hT] at hk; exact hk))
    (fun k _ => ⟨rfl, by
      simp only [block_plain, good_fscrypt, xor_fscrypt]
      rw [xor_bytes_length, demo_page_length]⟩)
  rw [hT] at h1 h3 h5 h8 h9
  rw [demo_bio_length] at h8 h9
  have hfed : fed_bytes (demo_decode spec_consumer mx).feeds = List.replicate PAGE_SIZE 21
      ++ (List.replicate PAGE_SIZE 22 ++ List.replicate 1808 23) := by
    have e0 : block_len 10000 0 = PAGE_SIZE := by decide
    have e1 : block_len 10000 1 = PAGE_SIZE := by decide
    have e2 : block_len 10000 2 = 1808 := by decide
    have m2 : min 1808 PAGE_SIZE = 1808 := by decide
    have hr : List.range 3 = [0, 1, 2] := rfl
    rw [demo_decode, h3, hr]
    simp only [List.map_cons, List.map_nil, List.flatten_cons, List.flatten_nil,
      List.append_nil, block_plain, good_fscrypt, xor_fscrypt, xor_bytes_demo_page,
      List.take_replicate, e0, e1, e2, m2, Nat.min_self]
    rfl
  have hmin : min 10000 (3 * PAGE_SIZE) = 10000 := by decide
  have hrest : 3 * PAGE_SIZE - 10000 = 2288 := by decide
  refine ⟨?_, hfed, ?_, ?_, ?_⟩
  · rw [demo_decode, h1]
    rfl
  · rw [demo_decode, h5]
    rfl
  · intro h
    obtain ⟨a1, a2, a3⟩ := h8 h
    refine ⟨a1, a2, ?_⟩
    rw [demo_decode] at hfed ⊢
    rw [a3, hfed, hmin, hrest]
  · intro h
    obtain ⟨a1, a2, a3⟩ := h9 h
    refine ⟨a1, a2, ?_⟩
    rw [demo_decode] at hfed ⊢
    rw [a3, hfed, hmin, demo_bio_bytes, List.drop_replicate, hrest]

/-- A streaming decode in which the blocks before `k` decrypt and block `k` fails:
the `k`-th transform call is made, on block `k`, and fails. -/
theorem decode_fail (F : fscrypt) (in_pages : List page) (disk_start : Nat) (dest : List bio_vec)
    (mx in_len : Nat) (m : address_space) (cp dp : Nat → page) (k : Nat)
    (hwf : block_buffers dest)
    (hlen : in_len + PAGE_SIZE ≤ U64_RANGE)
    (hk : k < DIV_ROUND_UP in_len PAGE_SIZE) (hkn : k < dest.length)
    (hdest : ∀ j : Nat, j ≤ k → dest[j]? = some ⟨dp j⟩)
    (hmap : (dp 0).mapping = some m)
    (hin : ∀ j : Nat, j ≤ k → in_pages[j]? = some (cp j))
    (hdec : ∀ j : Nat, j < k →
      (block_plain F m.host cp dp in_len j).1 = 0 ∧
      (block_plain F m.host cp dp in_len j).2.length = PAGE_SIZE)
    (hbad : (block_plain F m.host cp dp in_len k).1 ≠ 0) :
    (btrfs_decrypt_bio_pages F spec_consumer false in_pages disk_start ⟨dest, 0, mx⟩ in_len).calls[k]?
      = some ⟨m.host, cp k, block_len in_len k, 0, (dp k).index,
          (block_plain F m.host cp dp in_len k).1⟩ := by
  have ht := div_round_up_eq in_len hlen
  generalize hr : btrfs_decrypt_bio_pages F spec_consumer false in_pages disk_start ⟨dest, 0, mx⟩
    in_len = r
  have hpost := btrfs_decrypt_bio_pages_post F spec_consumer false in_pages disk_start ⟨dest, 0, mx⟩
    in_len
  rw [hr] at hpost
  have hpage : bio_page ⟨dest, 0, mx⟩ = some (dp 0) := by
    rw [bio_page_fresh, hdest 0 (Nat.zero_le k)]; rfl
  rcases hpost with ⟨_, h | h⟩ | ⟨_, out_page, mapping, st, hp, hm, post, hcalls, hfeeds, _,
    _, hexit⟩
  · exact absurd h.1 (by simp)
  · rw [hpage] at h
    simp [hmap] at h
  · rw [hpage] at hp
    cases hp
    rw [hmap] at hm
    cases hm
    generalize hT : DIV_ROUND_UP in_len PAGE_SIZE = T at *
    have hcall : ∀ (j : Nat) (c : decrypt_call), st.calls[j]? = some c → j ≤ k →
        c = ⟨m.host, cp j, block_len in_len j, 0, (dp j).index,
          (block_plain F m.host cp dp in_len j).1⟩ := by
      intro j c hc hj
      obtain ⟨c1, c2, c3, c4, c5, c6⟩ := post.trace.calls j c hc
      obtain ⟨cino, cpg, clen, coffs, clblk, cret⟩ := c
      simp only at c1 c2 c3 c4 c5 c6
      rw [hin j hj] at c2
      rw [hdest j hj] at c5
      simp only [Option.map_some', Option.some.injEq] at c2 c5
      subst c1 c2 c3 c4 c5 c6
      rfl
    have hslen : ∀ (j : Nat) (f : feed_call), st.feeds[j]? = some f → j < k →
        (feed_slice f).length = min (in_len - j * PAGE_SIZE) PAGE_SIZE := by
      intro j f hf hj
      obtain ⟨c, hc, _, f1, f2, f3, _⟩ := post.trace.feeds j f hf
      rw [hcall j c hc (le_of_lt hj)] at f1 f3
      simp only at f1 f3
      rw [feed_slice, f1, f3, Nat.add_sub_cancel_left, List.length_take]
      have := (hdec j hj).2
      simp only [block_plain] at this
      rw [this, block_len]
      omega
    -- no block up to `k` was fed after `k`: block `k` itself is never fed
    have hMk : st.feeds.length ≤ k := by
      by_contra hgt
      obtain ⟨c, hc, hzero, _⟩ := post.trace.feeds k _
        (List.getElem?_eq_getElem (show k < st.feeds.length by omega))
      rw [hcall k c hc (le_refl k)] at hzero
      exact hbad hzero
    -- a `break` before block `k` is excluded: the request still has room
    have hroom : ∀ f : feed_call, st.feeds[st.feeds.length - 1]? = some f → f.more ≠ 0 := by
      intro f hf hmore
      have hpos : 0 < st.feeds.length := by
        rcases Nat.eq_zero_or_pos st.feeds.length with h0 | h0
        · have : st.feeds = [] := List.eq_nil_of_length_eq_zero h0
          rw [this] at hf
          simp at hf
        · exact h0
      have hm := (post.trace.more _ f hf).1
      obtain ⟨w1, w2, w3, _⟩ := replay_spec dest mx hwf (st.feeds.take (st.feeds.length - 1))
      have hcap : bio_capacity (replay spec_consumer ⟨dest, 0, mx⟩
          (st.feeds.take (st.feeds.length - 1))) = dest.length * PAGE_SIZE := by
        rw [bio_capacity, w2]
      obtain ⟨_, _, _, _, w5⟩ := spec_feed (replay spec_consumer ⟨dest, 0, mx⟩
        (st.feeds.take (st.feeds.length - 1))) f w1 (by rw [hcap, w3]; omega)
      rw [← hm, hcap, w3] at w5
      have hlens : ∀ (i : Nat) (f : feed_call), st.feeds[i]? = some f →
          (feed_slice f).length = min (in_len - i * PAGE_SIZE) PAGE_SIZE :=
        fun i f hf => hslen i f hf (by have := (List.getElem?_eq_some.mp hf).1; omega)
      have hpre := fed_bytes_take_length in_len st.feeds hlens (st.feeds.length - 1) (by omega)
      rw [hpre, hlens _ f hf] at w5
      have := w5.mp hmore
      simp only [PAGE_SIZE] at this
      have hkn1 : k * 4096 < dest.length * 4096 := by omega
      omega
    rcases post.exit with ⟨e, c, _, he, hnc, hc, hce, _⟩ | ⟨_, _, _, hstop, _⟩ |
      ⟨_, _, hlt, _, hmiss⟩ | ⟨_, _, _, _, hl1, _⟩
    · rcases Nat.lt_or_ge st.feeds.length k with hlt | hge
      · rw [hcall _ c hc (le_of_lt hlt)] at hce
        simp only at hce
        rw [(hdec _ hlt).1] at hce
        exact absurd hce.symm he
      · have hkM : st.feeds.length = k := le_antisymm hMk hge
        rw [hkM] at hc
        rw [hcalls, hc, hcall k c hc (le_refl k)]
    · rcases hstop with h | ⟨f, hf, hmore⟩
      · omega
      · exact absurd hmore (hroom f hf)
    · rcases hmiss with h | h
      · rw [hin _ hMk] at h; cases h
      · simp only at h
        rw [hdest _ hMk] at h
        cases h
    · simp only at hl1
      omega

/-- A streaming decode of a single block with any consumer: one transform call, and
the destination cursor loaded at positions 0 and 1. When position 1 is a buffer
or an entry of the array, the request is zero filled and 0 returned; otherwise
the load at position 1 is a fault. -/
theorem decode_one_block (F : fscrypt) (C : consumer) (in_pages : List page) (disk_start : Nat)
    (dest : List bio_vec) (mx in_len : Nat) (m : address_space) (cp dp : page)
    (hT : DIV_ROUND_UP in_len PAGE_SIZE = 1)
    (hdest : dest[0]? = some ⟨dp⟩) (hmap : dp.mapping = some m)
    (hin : in_pages[0]? = some cp)
    (hdec : (F.fscrypt_decrypt_page m.host cp (min in_len PAGE_SIZE) 0 dp.index).1 = 0) :
    (btrfs_decrypt_bio_pages F C false in_pages disk_start ⟨dest, 0, mx⟩ in_len).calls
      = [⟨m.host, cp, min in_len PAGE_SIZE, 0, dp.index, 0⟩] ∧
    (btrfs_decrypt_bio_pages F C false in_pages disk_start ⟨dest, 0, mx⟩ in_len).bv_reads
      = [0, 1] ∧
    (1 < dest.length ∨ 1 < mx →
      (btrfs_decrypt_bio_pages F C false in_pages disk_start ⟨dest, 0, mx⟩ in_len).ret = some 0 ∧
      (btrfs_decrypt_bio_pages F C false in_pages disk_start ⟨dest, 0, mx⟩ in_len).zero_fills
        = 1) ∧
    (dest.length ≤ 1 ∧ mx ≤ 1 →
      (btrfs_decrypt_bio_pages F C false in_pages disk_start ⟨dest, 0, mx⟩ in_len).ret = none ∧
      (btrfs_decrypt_bio_pages F C false in_pages disk_start ⟨dest, 0, mx⟩ in_len).zero_fills
        = 0) := by
  have h0 : 0 < dest.length := (List.getElem?_eq_some.mp hdest).1
  have hl0 : load_bv_page dest mx 0 = some (some dp) := by
    unfold load_bv_page
    rw [if_pos (Or.inl h0), hdest]
    rfl
  unfold btrfs_decrypt_bio_pages
  by_cases h1 : 1 < dest.length ∨ 1 < mx
  · have hl1 : load_bv_page dest mx 1 = some ((dest[1]?).map bio_vec.bv_page) := by
      unfold load_bv_page
      rw [if_pos h1]
    simp only [Bool.false_eq_true, if_false, bio_page_fresh, hdest, Option.map_some', hmap,
      need_mapped_page, hT, decrypt_bio_loop, decrypt_bio_init, hin, hdec, ne_eq,
      not_true_eq_false, List.nil_append, Nat.zero_add, ite_self, List.singleton_append,
      and_self, hl0, hl1, h1, true_implies, true_and]
    omega
  · have hl1 : load_bv_page dest mx 1 = none := by
      unfold load_bv_page
      rw [if_neg h1]
    simp only [Bool.false_eq_true, if_false, bio_page_fresh, hdest, Option.map_some', hmap,
      need_mapped_page, hT, decrypt_bio_loop, decrypt_bio_init, hin, hdec, ne_eq,
      not_true_eq_false, List.nil_append, Nat.zero_add, ite_self, List.singleton_append,
      and_self, hl0, hl1, h1, false_implies, true_and, implies_true]

/-! ## The claims -/

/-- C2: the `k`-th transform call of `btrfs_decrypt_bio_pages` is made on the
`k`-th ciphertext page, with length `min (in_len - k * PAGE_SIZE) PAGE_SIZE`,
intra-block offset 0, and as tweak the `index` of the page of the `k`-th entry
of the request's `bi_io_vec`; the ciphertext page is decrypted in place: it
holds afterwards the bytes the service produced. -/
theorem decrypt_bio_pages_call (F : fscrypt) (C : consumer) (na_ws : Bool)
    (in_pages : List page) (disk_start : Nat) (orig_bio : bio) (in_len k : Nat)
    (c : decrypt_call)
    (hc : (btrfs_decrypt_bio_pages F C na_ws in_pages disk_start orig_bio in_len).calls[k]?
      = some c) :
    in_pages[k]? = some c.pg ∧
    c.len = min (in_len - k * PAGE_SIZE) PAGE_SIZE ∧ c.offs = 0 ∧
    (orig_bio.bi_io_vec[k]?).map (fun bv => bv.bv_page.index) = some c.lblk_num ∧
    (btrfs_decrypt_bio_pages F C na_ws in_pages disk_start orig_bio in_len).in_pages[k]?
      = some { c.pg with
          data := (F.fscrypt_decrypt_page c.ino c.pg c.len c.offs c.lblk_num).2 } := by
  rcases btrfs_decrypt_bio_pages_post F C na_ws in_pages disk_start orig_bio in_len with
    ⟨hs, _⟩ | ⟨_, _, _, st, _, _, post, hcalls, _, _, hin, _⟩
  · rw [hs.1] at hc
    simp at hc
  · rw [hcalls] at hc
    obtain ⟨_, c2, c3, c4, c5, _⟩ := post.trace.calls k c hc
    exact ⟨c2, c3, c4, c5, by rw [hin]; exact post.trace.inplace k c hc⟩

/-- Witness of C2: in the decode `demo_run` of 10000 bytes the call for block 1
is made on the ciphertext page `demo_ct_pages[1]` (whose own `index` is 0), with
length `PAGE_SIZE`, offset 0 and tweak 2, the index of the page of the request's
buffer 1. -/
theorem decrypt_bio_pages_call_witness :
    demo_run.calls[1]? = some ⟨some demo_inode, demo_page 0 21, PAGE_SIZE, 0, 2, 0⟩ ∧
    demo_ct_pages[1]? = some (demo_page 0 21) ∧
    PAGE_SIZE = min (10000 - 1 * PAGE_SIZE) PAGE_SIZE ∧ (0 : Nat) = 0 ∧
    ((demo_bio 3 1).bi_io_vec[1]?).map (fun bv => bv.bv_page.index) = some 2 ∧
    demo_run.in_pages[1]? = some { demo_page 0 21 with
      data := (good_fscrypt.fscrypt_decrypt_page (some demo_inode) (demo_page 0 21) PAGE_SIZE
        0 2).2 } :=
  have h : demo_run.calls[1]? = some ⟨some demo_inode, demo_page 0 21, PAGE_SIZE, 0, 2, 0⟩ := by
    rw [demo_run, (demo_decode_ok 3 (le_refl 3)).1]
    rfl
  ⟨h, decrypt_bio_pages_call good_fscrypt spec_consumer false demo_ct_pages PAGE_SIZE
    ⟨(demo_bio 3 1).bi_io_vec, 0, 3⟩ 10000 1 _ h⟩

/-- C4, as amended: for a range `(start, len)` of at least one byte that lies in
the `u64` offset space and `nr_pages >= ceil(len / PAGE_SIZE)`, if the cache
holds a page for each block and the transform service succeeds on each, then
`btrfs_encrypt_pages` returns 0, calls the transform exactly once per block, in
ascending offset order (call `k` is on the page at offset `start + k *
PAGE_SIZE`, with that page's index as tweak), and reports exactly
`ceil(len / PAGE_SIZE)` ciphertext pages in `*nr_ct_pages`, with `total_in =
total_out = len`, also when `nr_pages` is larger. -/
theorem encrypt_pages_block_count (F : fscrypt)
    (find_get_page : address_space → Nat → Option page) (mapping : address_space)
    (ino : inode) (start len nr_pages : Nat) (pt ct : Nat → page)
    (hhost : mapping.host = some ino)
    (hlen : 1 ≤ len) (hrange : start + len ≤ U64_RANGE)
    (hnr : nr_blocks len ≤ nr_pages)
    (hcache : ∀ k : Nat, k < nr_blocks len →
      find_get_page mapping ((start + k * PAGE_SIZE) >>> PAGE_SHIFT) = some (pt k))
    (henc : ∀ k : Nat, k < nr_blocks len →
      F.fscrypt_encrypt_page ino (pt k) (block_len len k) 0 (pt k).index = .ok (ct k)) :
    (btrfs_encrypt_pages F find_get_page mapping start len nr_pages).ret = some 0 ∧
    (btrfs_encrypt_pages F find_get_page mapping start len nr_pages).nr_ct_pages
      = nr_blocks len ∧
    (btrfs_encrypt_pages F find_get_page mapping start len nr_pages).pages
      = (List.range (nr_blocks len)).map ct ∧
    (btrfs_encrypt_pages F find_get_page mapping start len nr_pages).calls
      = (List.range (nr_blocks len)).map
          (fun k => ⟨pt k, block_len len k, 0, (pt k).index, .ok (ct k)⟩) ∧
    (btrfs_encrypt_pages F find_get_page mapping start len nr_pages).total_in = len ∧
    (btrfs_encrypt_pages F find_get_page mapping start len nr_pages).total_out = len :=
  encode_ok F find_get_page mapping ino start len nr_pages pt ct hhost hlen hrange hnr hcache
    henc

/-- Witness of C4 as amended: the range of 10000 bytes at offset `2 * PAGE_SIZE`
with 5 candidate pages is encrypted as 3 blocks. -/
theorem encrypt_pages_block_count_witness :
    nr_blocks 10000 = 3 ∧
    (btrfs_encrypt_pages good_fscrypt demo_cache demo_mapping (2 * PAGE_SIZE) 10000 5).ret
      = some 0 ∧
    (btrfs_encrypt_pages good_fscrypt demo_cache demo_mapping (2 * PAGE_SIZE) 10000
      5).nr_ct_pages = nr_blocks 10000 ∧
    (btrfs_encrypt_pages good_fscrypt demo_cache demo_mapping (2 * PAGE_SIZE) 10000 5).pages
      = (List.range (nr_blocks 10000)).map
          (fun k => ⟨0, none, xor_bytes (demo_page (2 + k) (2 + k + 1)).data (2 + k)⟩) ∧
    (btrfs_encrypt_pages good_fscrypt demo_cache demo_mapping (2 * PAGE_SIZE) 10000 5).calls
      = (List.range (nr_blocks 10000)).map
          (fun k => ⟨demo_page (2 + k) (2 + k + 1), block_len 10000 k, 0,
            (demo_page (2 + k) (2 + k + 1)).index,
            .ok ⟨0, none, xor_bytes (demo_page (2 + k) (2 + k + 1)).data (2 + k)⟩⟩) ∧
    (btrfs_encrypt_pages good_fscrypt demo_cache demo_mapping (2 * PAGE_SIZE) 10000
      5).total_in = 10000 ∧
    (btrfs_encrypt_pages good_fscrypt demo_cache demo_mapping (2 * PAGE_SIZE) 10000
      5).total_out = 10000 :=
  ⟨by decide,
    encrypt_pages_block_count good_fscrypt demo_cache demo_mapping demo_inode (2 * PAGE_SIZE)
      10000 5 (fun k => demo_page (2 + k) (2 + k + 1))
      (fun k => ⟨0, none, xor_bytes (demo_page (2 + k) (2 + k + 1)).data (2 + k)⟩)
      rfl (by decide) (by decide) (by decide)
      (fun k _ => by rw [shift_block]; rfl)
      (fun k _ => rfl)⟩

/-- Counterexample to C4 as stated: for the empty range (`len = 0`, so
`ceil(len / PAGE_SIZE) = 0`) and `nr_pages = 1` the transform succeeds, yet it
is called once (on a block of 0 bytes) and `*nr_ct_pages` is 1, not 0. -/
theorem encrypt_pages_empty_range :
    nr_blocks 0 = 0 ∧ nr_blocks 0 ≤ 1 ∧
    (btrfs_encrypt_pages good_fscrypt demo_cache demo_mapping 0 0 1).ret = some 0 ∧
    (btrfs_encrypt_pages good_fscrypt demo_cache demo_mapping 0 0 1).calls.map
      (fun c => (c.len, c.ct_page.toBool)) = [(0, true)] ∧
    (btrfs_encrypt_pages good_fscrypt demo_cache demo_mapping 0 0 1).calls.length
      ≠ nr_blocks 0 ∧
    (btrfs_encrypt_pages good_fscrypt demo_cache demo_mapping 0 0 1).nr_ct_pages = 1 ∧
    (btrfs_encrypt_pages good_fscrypt demo_cache demo_mapping 0 0 1).nr_ct_pages
      ≠ nr_blocks 0 := by
  decide

/-- C5: if the `k`-th transform call of `btrfs_encrypt_pages` (counted from 0)
fails with error `e`, the function returns exactly `e`, that call is the last
one made, all earlier calls succeeded, and `*nr_ct_pages` is `k`: only the `k`
ciphertext pages of the earlier blocks were stored. -/
theorem encrypt_pages_transform_failure (F : fscrypt)
    (find_get_page : address_space → Nat → Option page) (mapping : address_space)
    (start len nr_pages k : Nat) (c : encrypt_call) (e : Int)
    (hc : (btrfs_encrypt_pages F find_get_page mapping start len nr_pages).calls[k]? = some c)
    (hfail : c.ct_page = .error e) :
    (btrfs_encrypt_pages F find_get_page mapping start len nr_pages).ret = some e ∧
    (btrfs_encrypt_pages F find_get_page mapping start len nr_pages).calls.length = k + 1 ∧
    (btrfs_encrypt_pages F find_get_page mapping start len nr_pages).nr_ct_pages = k ∧
    (btrfs_encrypt_pages F find_get_page mapping start len nr_pages).pages.length = k ∧
    ∀ (j : Nat) (ct : page),
      (btrfs_encrypt_pages F find_get_page mapping start len nr_pages).pages[j]? = some ct →
      ∃ c1, (btrfs_encrypt_pages F find_get_page mapping start len nr_pages).calls[j]? = some c1 ∧
        c1.ct_page = .ok ct := by
  cases hhost : mapping.host with
  | none =>
    simp [btrfs_encrypt_pages, hhost] at hc
  | some ino =>
    have post := btrfs_encrypt_pages_post F find_get_page mapping start len nr_pages ino hhost
    generalize btrfs_encrypt_pages F find_get_page mapping start len nr_pages = r at post hc
    have hk : k < r.calls.length := (List.getElem?_eq_some.mp hc).1
    have hnot : ¬ k < r.pages.length := by
      intro hlt
      obtain ⟨c1, hc1, hok⟩ := post.trace.pages k _ (List.getElem?_eq_getElem hlt)
      rw [hc] at hc1
      cases hc1
      rw [hfail] at hok
      cases hok
    rcases post.exit with ⟨_, hnc, _⟩ | ⟨e1, c1, hret, hnc, hc1, hce, _⟩ | ⟨_, hnc, _⟩
    · omega
    · have hkP : k = r.pages.length := by omega
      rw [← hkP, hc] at hc1
      cases hc1
      rw [hfail] at hce
      cases hce
      exact ⟨hret, by omega, by rw [post.trace.nr]; omega, by omega, post.trace.pages⟩
    · omega

/-- Witness of C5: with a service that fails on the block of index 3, the encode
of the three blocks of indices 2, 3, 4 stops at block 1 with that error and
reports one ciphertext page. -/
theorem encrypt_pages_transform_failure_witness :
    (btrfs_encrypt_pages bad_fscrypt demo_cache demo_mapping (2 * PAGE_SIZE) (3 * PAGE_SIZE)
      3).calls[1]? = some ⟨demo_page 3 4, PAGE_SIZE, 0, 3, .error (-126)⟩ ∧
    (btrfs_encrypt_pages bad_fscrypt demo_cache demo_mapping (2 * PAGE_SIZE) (3 * PAGE_SIZE)
      3).ret = some (-126) ∧
    (btrfs_encrypt_pages bad_fscrypt demo_cache demo_mapping (2 * PAGE_SIZE) (3 * PAGE_SIZE)
      3).calls.length = 1 + 1 ∧
    (btrfs_encrypt_pages bad_fscrypt demo_cache demo_mapping (2 * PAGE_SIZE) (3 * PAGE_SIZE)
      3).nr_ct_pages = 1 ∧
    (btrfs_encrypt_pages bad_fscrypt demo_cache demo_mapping (2 * PAGE_SIZE) (3 * PAGE_SIZE)
      3).pages.length = 1 :=
  have h : (btrfs_encrypt_pages bad_fscrypt demo_cache demo_mapping (2 * PAGE_SIZE)
      (3 * PAGE_SIZE) 3).calls[1]? = some ⟨demo_page 3 4, PAGE_SIZE, 0, 3, .error (-126)⟩ := rfl
  have t := encrypt_pages_transform_failure bad_fscrypt demo_cache demo_mapping (2 * PAGE_SIZE)
    (3 * PAGE_SIZE) 3 1 _ (-126) h rfl
  ⟨h, t.1, t.2.1, t.2.2.1, t.2.2.2.1⟩

/-- C6: if the `k`-th transform call of `btrfs_decrypt_bio_pages` (counted from
0) fails (returns `e = c.ret`, non-zero), the function returns exactly `e`, that
call is the last one made, exactly the `k` earlier blocks, whose calls
succeeded, were fed to the reassembly consumer, and `zero_fill_bio` is not
called: the request is left as the `k` feeds left it. -/
theorem decrypt_bio_pages_transform_failure (F : fscrypt) (C : consumer) (na_ws : Bool)
    (in_pages : List page) (disk_start : Nat) (orig_bio : bio) (in_len k : Nat)
    (c : decrypt_call)
    (hc : (btrfs_decrypt_bio_pages F C na_ws in_pages disk_start orig_bio in_len).calls[k]?
      = some c)
    (hfail : c.ret ≠ 0) :
    (btrfs_decrypt_bio_pages F C na_ws in_pages disk_start orig_bio in_len).ret = some c.ret ∧
    (btrfs_decrypt_bio_pages F C na_ws in_pages disk_start orig_bio in_len).calls.length
      = k + 1 ∧
    (btrfs_decrypt_bio_pages F C na_ws in_pages disk_start orig_bio in_len).feeds.length = k ∧
    (∀ (j : Nat) (f : feed_call),
      (btrfs_decrypt_bio_pages F C na_ws in_pages disk_start orig_bio in_len).feeds[j]? = some f →
      ∃ c1, (btrfs_decrypt_bio_pages F C na_ws in_pages disk_start orig_bio in_len).calls[j]?
          = some c1 ∧ c1.ret = 0 ∧
        f.buf = (F.fscrypt_decrypt_page c1.ino c1.pg c1.len c1.offs c1.lblk_num).2) ∧
    (btrfs_decrypt_bio_pages F C na_ws in_pages disk_start orig_bio in_len).zero_fills = 0 ∧
    (btrfs_decrypt_bio_pages F C na_ws in_pages disk_start orig_bio in_len).orig_bio
      = replay C orig_bio
          (btrfs_decrypt_bio_pages F C na_ws in_pages disk_start orig_bio in_len).feeds := by
  rcases btrfs_decrypt_bio_pages_post F C na_ws in_pages disk_start orig_bio in_len with
    ⟨hs, _⟩ | ⟨_, _, _, st, _, _, post, hcalls, hfeeds, _, _, hexit⟩
  · rw [hs.1] at hc
    simp at hc
  · generalize btrfs_decrypt_bio_pages F C na_ws in_pages disk_start orig_bio in_len = r at *
    rw [hcalls] at hc
    have hk : k < st.calls.length := (List.getElem?_eq_some.mp hc).1
    have hnot : ¬ k < st.feeds.length := by
      intro hlt
      obtain ⟨c1, hc1, hok, _⟩ := post.trace.feeds k _ (List.getElem?_eq_getElem hlt)
      rw [hc] at hc1
      cases hc1
      exact hfail hok
    have hfeedsok : ∀ (j : Nat) (f : feed_call), r.feeds[j]? = some f →
        ∃ c1, r.calls[j]? = some c1 ∧ c1.ret = 0 ∧
          f.buf = (F.fscrypt_decrypt_page c1.ino c1.pg c1.len c1.offs c1.lblk_num).2 := by
      intro j f hf
      rw [hfeeds] at hf
      obtain ⟨c1, hc1, hok, hbuf, _⟩ := post.trace.feeds j f hf
      exact ⟨c1, by rw [hcalls]; exact hc1, hok, hbuf⟩
    rcases post.exit with ⟨e1, c1, hret, _, hnc, hc1, hce, _⟩ | ⟨_, hnc, _⟩ | ⟨_, hnc, _⟩ |
      ⟨_, hnc, _⟩
    · have hkM : k = st.feeds.length := by omega
      rw [← hkM, hc] at hc1
      cases hc1
      rcases hexit with ⟨hx, _⟩ | ⟨e2, hx, x1, x2, x3⟩ | ⟨hx, _⟩
      · rw [hret] at hx; cases hx
      · rw [hret] at hx
        cases hx
        rw [← hce] at x1
        exact ⟨x1, by rw [hcalls]; omega, by rw [hfeeds]; omega, hfeedsok, x2,
          by rw [x3, hfeeds]; exact post.trace.bio⟩
      · rw [hret] at hx; cases hx
    · omega
    · omega
    · omega

/-- Witness of C6: with a service that fails on the block of tweak index 3, the
decode of three ciphertext pages into the request for the page indices 2, 3, 4
fails at block 1: `-126` is returned, block 0 alone was fed, nothing is zero
filled. -/
theorem decrypt_bio_pages_transform_failure_witness :
    (btrfs_decrypt_bio_pages bad_fscrypt spec_consumer false demo_ct_pages (2 * PAGE_SIZE)
      ⟨(demo_bio 3 2).bi_io_vec, 0, 3⟩ (3 * PAGE_SIZE)).calls[1]?
      = some ⟨some demo_inode, demo_page 0 21, PAGE_SIZE, 0, 3, -126⟩ ∧
    (btrfs_decrypt_bio_pages bad_fscrypt spec_consumer false demo_ct_pages (2 * PAGE_SIZE)
      ⟨(demo_bio 3 2).bi_io_vec, 0, 3⟩ (3 * PAGE_SIZE)).ret = some (-126) ∧
    (btrfs_decrypt_bio_pages bad_fscrypt spec_consumer false demo_ct_pages (2 * PAGE_SIZE)
      ⟨(demo_bio 3 2).bi_io_vec, 0, 3⟩ (3 * PAGE_SIZE)).calls.length = 1 + 1 ∧
    (btrfs_decrypt_bio_pages bad_fscrypt spec_consumer false demo_ct_pages (2 * PAGE_SIZE)
      ⟨(demo_bio 3 2).bi_io_vec, 0, 3⟩ (3 * PAGE_SIZE)).feeds.length = 1 ∧
    (btrfs_decrypt_bio_pages bad_fscrypt spec_consumer false demo_ct_pages (2 * PAGE_SIZE)
      ⟨(demo_bio 3 2).bi_io_vec, 0, 3⟩ (3 * PAGE_SIZE)).zero_fills = 0 :=
  have h : (btrfs_decrypt_bio_pages bad_fscrypt spec_consumer false demo_ct_pages
      (2 * PAGE_SIZE) ⟨(demo_bio 3 2).bi_io_vec, 0, 3⟩ (3 * PAGE_SIZE)).calls[1]?
      = some ⟨some demo_inode, demo_page 0 21, PAGE_SIZE, 0, 3, -126⟩ :=
    decode_fail bad_fscrypt demo_ct_pages (2 * PAGE_SIZE) (demo_bio 3 2).bi_io_vec 3
      (3 * PAGE_SIZE) demo_mapping (fun k => demo_page 0 (23 - 2 * k))
      (fun k => demo_page (2 + k) 170) 1 (demo_bio_block_buffers 3 2) (by decide) (by decide)
      (by rw [demo_bio_length]; decide)
      (fun j hj => demo_bio_getElem? 3 2 j (by omega)) rfl
      (fun j hj => by interval_cases j <;> rfl)
      (fun j hj => by
        have hj0 : j = 0 := by omega
        subst hj0
        exact ⟨rfl, by
          simp only [block_plain, bad_fscrypt, xor_fscrypt]
          exact (xor_bytes_length _ _).trans (demo_page_length _ _)⟩)
      (by decide)
  have t := decrypt_bio_pages_transform_failure bad_fscrypt spec_consumer false demo_ct_pages
    (2 * PAGE_SIZE) ⟨(demo_bio 3 2).bi_io_vec, 0, 3⟩ (3 * PAGE_SIZE) 1 _ h (by decide)
  ⟨h, t.1, t.2.1, t.2.2.1, t.2.2.2.2.1⟩

/-- C7: `btrfs_decrypt_pages` called with `in_size > PAGE_SIZE` or `max_out_size <
PAGE_SIZE` returns `-EINVAL`, leaves the destination page as it was (no
ciphertext byte is copied into it) and never calls the transform service. -/
theorem decrypt_pages_invalid_size (F : fscrypt) (in_buf : List Nat) (out_page : page)
    (na_start_byte in_size max_out_size : Nat)
    (h : in_size > PAGE_SIZE ∨ max_out_size < PAGE_SIZE) :
    (btrfs_decrypt_pages F in_buf out_page na_start_byte in_size max_out_size).ret
        = some (-EINVAL) ∧
      (btrfs_decrypt_pages F in_buf out_page na_start_byte in_size max_out_size).out_page
        = out_page ∧
      (btrfs_decrypt_pages F in_buf out_page na_start_byte in_size max_out_size).calls = [] := by
  simp [btrfs_decrypt_pages, h]

/-- Witness of C7: a ciphertext of `PAGE_SIZE + 1` bytes is rejected. -/
theorem decrypt_pages_invalid_size_witness :
    (PAGE_SIZE + 1 > PAGE_SIZE ∨ PAGE_SIZE < PAGE_SIZE) ∧
    (btrfs_decrypt_pages good_fscrypt (List.replicate (PAGE_SIZE + 1) 1) (demo_page 5 170) 0
        (PAGE_SIZE + 1) PAGE_SIZE).ret = some (-EINVAL) ∧
      (btrfs_decrypt_pages good_fscrypt (List.replicate (PAGE_SIZE + 1) 1) (demo_page 5 170) 0
        (PAGE_SIZE + 1) PAGE_SIZE).out_page = demo_page 5 170 ∧
      (btrfs_decrypt_pages good_fscrypt (List.replicate (PAGE_SIZE + 1) 1) (demo_page 5 170) 0
        (PAGE_SIZE + 1) PAGE_SIZE).calls = [] :=
  ⟨Or.inl (Nat.lt_succ_self _),
    decrypt_pages_invalid_size good_fscrypt (List.replicate (PAGE_SIZE + 1) 1) (demo_page 5 170)
      0 (PAGE_SIZE + 1) PAGE_SIZE (Or.inl (Nat.lt_succ_self _))⟩

/-- C8, the code at the failing inputs. An ownerless destination (mapping set,
no host inode) is not rejected: `btrfs_decrypt_pages` copies the ciphertext
into it and calls the transform service with a `NULL` inode, and
`btrfs_decrypt_bio_pages` (with any consumer, whatever the size `mx` of the
request's array) calls the transform service with a `NULL` inode too and then
returns 0, unless the load of the cursor at position 1 is outside the array. An
unmapped destination is not rejected with `-EINVAL` either: the test
dereferences the `NULL` mapping (a fault). -/
theorem decoders_unmapped_ownerless (C : consumer) (mx : Nat) :
    (btrfs_decrypt_pages good_fscrypt (List.replicate PAGE_SIZE 1) ownerless_page 0 PAGE_SIZE
      PAGE_SIZE).ret = some 0 ∧
    (btrfs_decrypt_pages good_fscrypt (List.replicate PAGE_SIZE 1) ownerless_page 0 PAGE_SIZE
      PAGE_SIZE).calls.map (fun c => (c.ino, c.lblk_num)) = [(none, 5)] ∧
    (btrfs_decrypt_pages good_fscrypt (List.replicate PAGE_SIZE 1) ownerless_page 0 PAGE_SIZE
      PAGE_SIZE).out_page.data = List.replicate PAGE_SIZE 7 ∧
    (btrfs_decrypt_pages good_fscrypt (List.replicate PAGE_SIZE 1) unmapped_page 0 PAGE_SIZE
      PAGE_SIZE).ret = none ∧
    (btrfs_decrypt_bio_pages good_fscrypt C false [demo_page 0 23] 0
      ⟨[⟨ownerless_page⟩], 0, mx⟩ PAGE_SIZE).ret = (if 1 < mx then some 0 else none) ∧
    (btrfs_decrypt_bio_pages good_fscrypt C false [demo_page 0 23] 0
      ⟨[⟨ownerless_page⟩], 0, mx⟩ PAGE_SIZE).calls
      = [⟨none, demo_page 0 23, PAGE_SIZE, 0, 5, 0⟩] ∧
    (btrfs_decrypt_bio_pages good_fscrypt C false [demo_page 0 23] 0
      ⟨[⟨unmapped_page⟩], 0, mx⟩ PAGE_SIZE).ret = none := by
  obtain ⟨h1, _, h3, h4⟩ := decode_one_block good_fscrypt C [demo_page 0 23] 0
    [⟨ownerless_page⟩] mx PAGE_SIZE ⟨none⟩ (demo_page 0 23) ownerless_page (by decide) rfl rfl
    rfl rfl
  refine ⟨by decide, by decide, ?_, by decide, ?_, ?_, ?_⟩
  · simp only [btrfs_decrypt_pages, need_mapped_page, ownerless_page, good_fscrypt, xor_fscrypt,
      xor_bytes, memcpy, ASSERT, Nat.lt_irrefl, or_self, if_false, List.take_replicate,
      List.drop_replicate, Nat.min_self, Nat.sub_self, List.replicate_zero, List.append_nil,
      List.map_replicate]
    rfl
  · split
    · rename_i h
      exact (h3 (Or.inr h)).1
    · rename_i h
      exact (h4 ⟨le_refl 1, by omega⟩).1
  · rw [h1]
    rfl
  · simp [btrfs_decrypt_bio_pages, bio_page_fresh, unmapped_page, need_mapped_page]

/-- C9, the code at the failing input: on a filesystem whose sector size (8192)
differs from the page size, `btrfs_encrypt_pages` logs the mismatch, and then
(`ASSERT(1)` cannot fire) encrypts all the same: it calls the transform
service, stores a ciphertext page and returns 0. -/
theorem encrypt_pages_blocksize_mismatch :
    big_sector_inode.sectorsize ≠ PAGE_SIZE ∧
    (btrfs_encrypt_pages good_fscrypt demo_cache ⟨some big_sector_inode⟩ 0 PAGE_SIZE 1).log
      = ["blocksize not same as page size"] ∧
    (btrfs_encrypt_pages good_fscrypt demo_cache ⟨some big_sector_inode⟩ 0 PAGE_SIZE 1).ret
      = some 0 ∧
    (btrfs_encrypt_pages good_fscrypt demo_cache ⟨some big_sector_inode⟩ 0 PAGE_SIZE
      1).calls.length = 1 ∧
    (btrfs_encrypt_pages good_fscrypt demo_cache ⟨some big_sector_inode⟩ 0 PAGE_SIZE
      1).nr_ct_pages = 1 := by
  decide

/-- C10, the code at the failing input: for a request of one destination buffer
and one ciphertext block the decode (with any consumer, whatever the size `mx`
of the request's array) loads the destination cursor at positions 0 and 1:
position 1 is not one of the request's buffers. When position 1 is still an
entry of the array the run goes on and returns 0; when it is outside the array
the load is a fault. -/
theorem decrypt_bio_pages_cursor_overrun (C : consumer) (mx : Nat) :
    (demo_bio 1 1).bi_io_vec.length = 1 ∧
    DIV_ROUND_UP PAGE_SIZE PAGE_SIZE = 1 ∧
    (btrfs_decrypt_bio_pages good_fscrypt C false [demo_page 0 23] PAGE_SIZE
      ⟨(demo_bio 1 1).bi_io_vec, 0, mx⟩ PAGE_SIZE).ret = (if 1 < mx then some 0 else none) ∧
    (btrfs_decrypt_bio_pages good_fscrypt C false [demo_page 0 23] PAGE_SIZE
      ⟨(demo_bio 1 1).bi_io_vec, 0, mx⟩ PAGE_SIZE).bv_reads = [0, 1] := by
  obtain ⟨_, h2, h3, h4⟩ := decode_one_block good_fscrypt C [demo_page 0 23] PAGE_SIZE
    (demo_bio 1 1).bi_io_vec mx PAGE_SIZE demo_mapping (demo_page 0 23) (demo_page 1 170)
    (by decide) rfl rfl rfl rfl
  refine ⟨demo_bio_length 1 1, by decide, ?_, h2⟩
  split
  · rename_i h
    exact (h3 (Or.inr h)).1
  · rename_i h
    exact (h4 ⟨by rw [demo_bio_length], by omega⟩).1

end BtrfsEncrypt
